import Mathlib

/-!
# Verification of the arb floating-point bound kernel against its specification

This file gives a shallow embedding of the parts of the arb library relevant
to the frozen claims:

* `arf_cmp` (from `arf/cmp.c`): comparison of exact arbitrary-precision
  floating-point values with special values (zero, ±infinity, NaN);
* the `mag` fast magnitude-bound type (modelled from the specification and
  `doc/source/mag.rst`, since the implementations are not part of the
  source tree given);
* `fmpcb_mat_sub` (from `fmpcb_mat/sub.c`): entry-wise matrix subtraction;
* `fmpr_sqrt` and `fmpr_check_ulp` (modelled from the specification; only
  their test harness `t-sqrt.c` is in the source tree).

Machine integers are modelled as `Nat`/`Int`; limb vectors as lists of
naturals below `2 ^ 64`; exact values live in `ℚ` (dyadic rationals), and
reference (infinite-precision) quantities such as square roots live in `ℝ`.
-/

/-! ## Limb vectors (GMP `mpn` layer)

An `mpn` number is a little-endian vector of limbs, each limb a machine
word of `FLINT_BITS = 64` bits. -/

/-- Number of bits in one machine limb (`FLINT_BITS`). -/
def limbBits : Nat := 64

/-- One more than the largest limb value: `2 ^ limbBits`. -/
def limbBound : Nat := 2 ^ limbBits

/-- Value of a little-endian limb vector (least significant limb first). -/
def limbsVal : List Nat → Nat
  | [] => 0
  | l :: ls => l + limbBound * limbsVal ls

/-- Comparison scan over two equal-length big-endian limb vectors,
most significant limb first: the scan order of GMP's `mpn_cmp`. -/
def limbCmpBE : List Nat → List Nat → Int
  | x :: xs, y :: ys =>
    if x < y then -1 else if y < x then 1 else limbCmpBE xs ys
  | _, _ => 0

/-- GMP's `mpn_cmp` on little-endian limb vectors of equal length:
compare limbs starting from the most significant end, returning the sign
of the first difference. -/
def mpn_cmp (xs ys : List Nat) : Int := limbCmpBE xs.reverse ys.reverse

/-! ## The `arf` type

An `arf_t` is NaN, +∞, −∞, zero, or a finite value with a sign bit
(`ARF_SGNBIT`), a normalized little-endian mantissa limb vector and an
`fmpz` exponent.  The value of a finite `arf` is
`±m · 2 ^ (exp − limbBits · n)` where `m` is the mantissa value and `n` its
limb count, i.e. the mantissa is read as a fraction in `[1/2, 1)`. -/

/-- Finite (non-special) `arf` payload: sign bit, mantissa limbs
(little-endian), exponent. -/
structure ArfFin where
  sign : Bool
  limbs : List Nat
  exp : Int
deriving DecidableEq

/-- Normalization invariant of a finite `arf`: at least one limb, each limb
a 64-bit word, top bit of the most significant limb set, least significant
limb nonzero. -/
def ArfFin.WF (f : ArfFin) : Prop :=
  f.limbs ≠ [] ∧ (∀ l ∈ f.limbs, l < limbBound) ∧
    (∀ l ∈ f.limbs.getLast?, limbBound / 2 ≤ l) ∧ (∀ l ∈ f.limbs.head?, l ≠ 0)

instance (f : ArfFin) : Decidable f.WF := by
  unfold ArfFin.WF; infer_instance

/-- Exact rational value of a finite `arf`. -/
def ArfFin.val (f : ArfFin) : ℚ :=
  (if f.sign then -1 else 1) * (limbsVal f.limbs : ℚ) *
    (2 : ℚ) ^ (f.exp - (limbBits : Int) * f.limbs.length)

/-- Absolute value of a finite `arf`. -/
def ArfFin.mag (f : ArfFin) : ℚ :=
  (limbsVal f.limbs : ℚ) * (2 : ℚ) ^ (f.exp - (limbBits : Int) * f.limbs.length)

/-- An `arf_t` value: NaN, +∞, −∞, zero, or finite. -/
inductive Arf where
  | nan : Arf
  | pos_inf : Arf
  | neg_inf : Arf
  | zero : Arf
  | fin (f : ArfFin) : Arf
deriving DecidableEq

/-- `arf_is_special`: mantissa is zero, i.e. the value is zero, ±∞ or NaN. -/
def arf_is_special : Arf → Bool
  | .fin _ => false
  | _ => true

/-- `arf_is_nan`. -/
def arf_is_nan : Arf → Bool
  | .nan => true
  | _ => false

/-- `arf_is_zero`. -/
def arf_is_zero : Arf → Bool
  | .zero => true
  | _ => false

/-- `arf_is_pos_inf`. -/
def arf_is_pos_inf : Arf → Bool
  | .pos_inf => true
  | _ => false

/-- `arf_is_neg_inf`. -/
def arf_is_neg_inf : Arf → Bool
  | .neg_inf => true
  | _ => false

/-- `arf_equal`: bitwise equality of representations (representations are
canonical, so this is value equality on each class). -/
def arf_equal (x y : Arf) : Bool := decide (x = y)

/-- `arf_sgn`: −1, 0 or 1 according to the sign of the value; 0 for NaN. -/
def arf_sgn : Arf → Int
  | .nan => 0
  | .zero => 0
  | .pos_inf => 1
  | .neg_inf => -1
  | .fin f => if f.sign then -1 else 1

/-- `fmpz_cmp` reduced to its sign, as used by `arf_cmp`. -/
def fmpz_cmp (a b : Int) : Int := if a < b then -1 else if b < a then 1 else 0

/-- `arf_cmp` from `arf/cmp.c`, transcribed branch for branch.
`ARF_GET_MPN_READONLY` yields the little-endian limb vector and its length;
`xp + xn - yn` is the top `yn` limbs, i.e. `List.drop (xn - yn)`. -/
def arf_cmp (x y : Arf) : Int :=
  if arf_is_special x || arf_is_special y then
    if arf_equal x y then 0
    else if arf_is_nan x || arf_is_nan y then 0
    else if arf_is_zero y then arf_sgn x
    else if arf_is_zero x then - arf_sgn y
    else if arf_is_pos_inf x then 1
    else if arf_is_neg_inf y then 1
    else -1
  else
    match x, y with
    | .fin fx, .fin fy =>
      let xs := fx.sign
      let ys := fy.sign
      if xs ≠ ys then (if xs then -1 else 1)
      else
        let ec := fmpz_cmp fx.exp fy.exp
        if ec ≠ 0 then (if xor (decide (ec < 0)) xs then -1 else 1)
        else
          let xn := fx.limbs.length
          let yn := fy.limbs.length
          let mc := if yn ≤ xn then mpn_cmp (fx.limbs.drop (xn - yn)) fy.limbs
                    else mpn_cmp fx.limbs (fy.limbs.drop (yn - xn))
          if mc ≠ 0 then (if xor (decide (mc < 0)) xs then -1 else 1)
          else if xn ≠ yn then (if xor (decide (xn < yn)) xs then -1 else 1)
          else 0
    | _, _ => 0

/-- Sign of a rational number as an integer in `{-1, 0, 1}`. -/
def ratSign (q : ℚ) : Int := if q < 0 then -1 else if 0 < q then 1 else 0

/-- Value of a big-endian limb vector (most significant limb first). -/
def beVal : List Nat → Nat
  | [] => 0
  | x :: xs => x * limbBound ^ xs.length + beVal xs

/-! ## Correctness of the limb comparison -/

theorem limbBound_pos : 0 < limbBound := by
  unfold limbBound; positivity

theorem beVal_lt (xs : List Nat) (h : ∀ l ∈ xs, l < limbBound) :
    beVal xs < limbBound ^ xs.length := by
  induction xs with
  | nil => simp [beVal]
  | cons x xs ih =>
    have hx : x < limbBound := h x (by simp)
    have hxs : beVal xs < limbBound ^ xs.length := ih (fun l hl => h l (by simp [hl]))
    have hx1 : x + 1 ≤ limbBound := hx
    calc x * limbBound ^ xs.length + beVal xs
        < x * limbBound ^ xs.length + limbBound ^ xs.length := by omega
      _ = (x + 1) * limbBound ^ xs.length := by ring
      _ ≤ limbBound * limbBound ^ xs.length :=
          Nat.mul_le_mul_right _ hx1
      _ = limbBound ^ (x :: xs).length := by
          simp [List.length_cons, pow_succ]; ring

theorem limbCmpBE_spec (xs ys : List Nat) (hlen : xs.length = ys.length)
    (hxb : ∀ l ∈ xs, l < limbBound) (hyb : ∀ l ∈ ys, l < limbBound) :
    (limbCmpBE xs ys = 0 ∧ xs = ys) ∨
    (limbCmpBE xs ys = -1 ∧ beVal xs < beVal ys) ∨
    (limbCmpBE xs ys = 1 ∧ beVal ys < beVal xs) := by
  induction xs generalizing ys with
  | nil =>
    cases ys with
    | nil => left; exact ⟨rfl, rfl⟩
    | cons y ys => simp at hlen
  | cons x xs ih =>
    cases ys with
    | nil => simp at hlen
    | cons y ys =>
      have hlen2 : xs.length = ys.length := by simpa using hlen
      by_cases hxy : x < y
      · right; left
        refine ⟨by simp [limbCmpBE, hxy], ?_⟩
        have hxs : beVal xs < limbBound ^ xs.length :=
          beVal_lt xs (fun l hl => hxb l (by simp [hl]))
        calc x * limbBound ^ xs.length + beVal xs
            < x * limbBound ^ xs.length + limbBound ^ xs.length := by omega
          _ = (x + 1) * limbBound ^ xs.length := by ring
          _ ≤ y * limbBound ^ xs.length := Nat.mul_le_mul_right _ hxy
          _ = y * limbBound ^ ys.length := by rw [hlen2]
          _ ≤ y * limbBound ^ ys.length + beVal ys := Nat.le_add_right _ _
      · by_cases hyx : y < x
        · right; right
          refine ⟨by simp [limbCmpBE, hxy, hyx], ?_⟩
          have hys : beVal ys < limbBound ^ ys.length :=
            beVal_lt ys (fun l hl => hyb l (by simp [hl]))
          calc y * limbBound ^ ys.length + beVal ys
              < y * limbBound ^ ys.length + limbBound ^ ys.length := by omega
            _ = (y + 1) * limbBound ^ ys.length := by ring
            _ ≤ x * limbBound ^ ys.length := Nat.mul_le_mul_right _ hyx
            _ = x * limbBound ^ xs.length := by rw [hlen2]
            _ ≤ x * limbBound ^ xs.length + beVal xs := Nat.le_add_right _ _
        · have hx : x = y := by omega
          subst hx
          have := ih ys hlen2 (fun l hl => hxb l (by simp [hl]))
            (fun l hl => hyb l (by simp [hl]))
          rcases this with ⟨h0, he⟩ | ⟨h1, hlt⟩ | ⟨h1, hlt⟩
          · left
            refine ⟨by simp [limbCmpBE, h0], by rw [he]⟩
          · right; left
            refine ⟨by simp [limbCmpBE, h1], ?_⟩
            simp only [beVal, hlen2]
            omega
          · right; right
            refine ⟨by simp [limbCmpBE, h1], ?_⟩
            simp only [beVal, hlen2]
            omega

theorem beVal_append_singleton (xs : List Nat) (x : Nat) :
    beVal (xs ++ [x]) = beVal xs * limbBound + x := by
  induction xs with
  | nil => simp [beVal]
  | cons a as ih =>
    have hlen : (as ++ [x]).length = as.length + 1 := by simp
    calc beVal ((a :: as) ++ [x])
        = a * limbBound ^ (as ++ [x]).length + beVal (as ++ [x]) := rfl
      _ = a * limbBound ^ (as.length + 1) + (beVal as * limbBound + x) := by
          rw [hlen, ih]
      _ = (a * limbBound ^ as.length + beVal as) * limbBound + x := by
          rw [pow_succ]; ring
      _ = beVal (a :: as) * limbBound + x := rfl

theorem limbsVal_eq_beVal_reverse (xs : List Nat) :
    limbsVal xs = beVal xs.reverse := by
  induction xs with
  | nil => rfl
  | cons x xs ih =>
    simp only [limbsVal, List.reverse_cons, beVal_append_singleton, ih]
    ring

/-- Specification of `mpn_cmp` on equal-length little-endian vectors:
it returns the sign of the comparison of the represented values, and `0`
exactly on equal vectors. -/
theorem mpn_cmp_spec (xs ys : List Nat) (hlen : xs.length = ys.length)
    (hxb : ∀ l ∈ xs, l < limbBound) (hyb : ∀ l ∈ ys, l < limbBound) :
    (mpn_cmp xs ys = 0 ∧ xs = ys) ∨
    (mpn_cmp xs ys = -1 ∧ limbsVal xs < limbsVal ys) ∨
    (mpn_cmp xs ys = 1 ∧ limbsVal ys < limbsVal xs) := by
  have h := limbCmpBE_spec xs.reverse ys.reverse (by simp [hlen])
    (by simpa using hxb) (by simpa using hyb)
  rcases h with ⟨h0, he⟩ | ⟨h1, hlt⟩ | ⟨h1, hlt⟩
  · left
    exact ⟨h0, by simpa using congrArg List.reverse he⟩
  · right; left
    exact ⟨h1, by rw [limbsVal_eq_beVal_reverse, limbsVal_eq_beVal_reverse]; exact hlt⟩
  · right; right
    exact ⟨h1, by rw [limbsVal_eq_beVal_reverse, limbsVal_eq_beVal_reverse]; exact hlt⟩

/-! ## Bounds on mantissa values from the normalization invariant -/

theorem limbsVal_lt (xs : List Nat) (h : ∀ l ∈ xs, l < limbBound) :
    limbsVal xs < limbBound ^ xs.length := by
  rw [limbsVal_eq_beVal_reverse]
  have := beVal_lt xs.reverse (by simpa using h)
  simpa using this

theorem limbsVal_append (xs ys : List Nat) :
    limbsVal (xs ++ ys) = limbsVal xs + limbBound ^ xs.length * limbsVal ys := by
  induction xs with
  | nil => simp [limbsVal]
  | cons x xs ih =>
    calc limbsVal ((x :: xs) ++ ys)
        = x + limbBound * limbsVal (xs ++ ys) := rfl
      _ = x + limbBound * (limbsVal xs + limbBound ^ xs.length * limbsVal ys) := by
          rw [ih]
      _ = (x + limbBound * limbsVal xs) + limbBound ^ (x :: xs).length * limbsVal ys := by
          rw [List.length_cons, pow_succ]; ring
      _ = limbsVal (x :: xs) + limbBound ^ (x :: xs).length * limbsVal ys := rfl

theorem limbsVal_getLast_le (xs : List Nat) :
    ∀ l ∈ xs.getLast?, l * limbBound ^ (xs.length - 1) ≤ limbsVal xs := by
  induction xs with
  | nil => simp
  | cons x xs ih =>
    cases xs with
    | nil => intro l hl; simp at hl; simp [hl, limbsVal]
    | cons a as =>
      intro l hl
      rw [List.getLast?_cons_cons] at hl
      have h2 := ih l hl
      calc l * limbBound ^ ((x :: a :: as).length - 1)
          = limbBound * (l * limbBound ^ ((a :: as).length - 1)) := by
            simp only [List.length_cons, Nat.add_sub_cancel]
            rw [pow_succ]
            ring
        _ ≤ limbBound * limbsVal (a :: as) := Nat.mul_le_mul_left _ h2
        _ ≤ x + limbBound * limbsVal (a :: as) := Nat.le_add_left _ _
        _ = limbsVal (x :: a :: as) := rfl

/-- For a well-formed mantissa of `n` limbs, `2 ^ (64 n − 1) ≤ m < 2 ^ (64 n)`. -/
theorem ArfFin.mantissa_bounds (f : ArfFin) (hf : f.WF) :
    2 ^ (limbBits * f.limbs.length - 1) ≤ limbsVal f.limbs ∧
      limbsVal f.limbs < 2 ^ (limbBits * f.limbs.length) := by
  obtain ⟨hne, hb, hlast, hhead⟩ := hf
  have hlen : 1 ≤ f.limbs.length := by
    cases hx : f.limbs with
    | nil => exact absurd hx hne
    | cons a as => simp
  constructor
  · obtain ⟨l, hl⟩ := List.getLast?_isSome.mpr hne |> Option.isSome_iff_exists.mp
    have h1 := limbsVal_getLast_le f.limbs l hl
    have h2 : limbBound / 2 ≤ l := hlast l hl
    have h3 : limbBound / 2 = 2 ^ (limbBits - 1) := by
      unfold limbBound limbBits
      norm_num
    calc 2 ^ (limbBits * f.limbs.length - 1)
        = 2 ^ (limbBits - 1) * 2 ^ (limbBits * (f.limbs.length - 1)) := by
          rw [← pow_add]
          congr 1
          unfold limbBits
          omega
      _ = 2 ^ (limbBits - 1) * limbBound ^ (f.limbs.length - 1) := by
          unfold limbBound
          rw [← pow_mul]
      _ ≤ l * limbBound ^ (f.limbs.length - 1) :=
          Nat.mul_le_mul_right _ (h3 ▸ h2)
      _ ≤ limbsVal f.limbs := h1
  · have := limbsVal_lt f.limbs hb
    unfold limbBound at this
    rwa [← pow_mul] at this

/-- The mantissa value of a well-formed finite `arf` is positive. -/
theorem ArfFin.mantissa_pos (f : ArfFin) (hf : f.WF) : 0 < limbsVal f.limbs := by
  have h := (f.mantissa_bounds hf).1
  have : 0 < 2 ^ (limbBits * f.limbs.length - 1) := Nat.pos_pow_of_pos _ (by omega)
  omega

/-! ## Rational magnitude lemmas for finite `arf` values -/

theorem two_zpow_pos (u : Int) : (0:ℚ) < 2 ^ u := by positivity

theorem two_q_ne_zero : (2:ℚ) ≠ 0 := by norm_num

theorem ArfFin.mag_pos (f : ArfFin) (hf : f.WF) : 0 < f.mag := by
  unfold ArfFin.mag
  have h1 := f.mantissa_pos hf
  have h : (0:ℚ) < (limbsVal f.limbs : ℚ) := by exact_mod_cast h1
  exact mul_pos h (two_zpow_pos _)

theorem ArfFin.val_eq_sign_mag (f : ArfFin) :
    f.val = (if f.sign then -1 else 1) * f.mag := by
  unfold ArfFin.val ArfFin.mag; ring

theorem natCast_pow2_eq_zpow (k : Nat) : ((2 ^ k : Nat) : ℚ) = (2:ℚ) ^ (k : Int) := by
  push_cast; norm_num

/-- Magnitude upper bound from normalization: `|x| < 2 ^ exp`. -/
theorem ArfFin.mag_lt (f : ArfFin) (hf : f.WF) : f.mag < (2:ℚ) ^ f.exp := by
  unfold ArfFin.mag
  have hm : limbsVal f.limbs < 2 ^ (limbBits * f.limbs.length) := (f.mantissa_bounds hf).2
  have hmq : (limbsVal f.limbs : ℚ) < (2:ℚ) ^ ((limbBits * f.limbs.length : Nat) : Int) := by
    rw [← natCast_pow2_eq_zpow]
    exact_mod_cast hm
  calc (limbsVal f.limbs : ℚ) * 2 ^ (f.exp - (limbBits : Int) * f.limbs.length)
      < 2 ^ ((limbBits * f.limbs.length : Nat) : Int) *
          2 ^ (f.exp - (limbBits : Int) * f.limbs.length) :=
        mul_lt_mul_of_pos_right hmq (two_zpow_pos _)
    _ = 2 ^ f.exp := by
        rw [← zpow_add₀ two_q_ne_zero]
        congr 1
        push_cast
        ring

/-- Magnitude lower bound from normalization: `2 ^ (exp − 1) ≤ |x|`. -/
theorem ArfFin.mag_ge (f : ArfFin) (hf : f.WF) : (2:ℚ) ^ (f.exp - 1) ≤ f.mag := by
  have hm : 2 ^ (limbBits * f.limbs.length - 1) ≤ limbsVal f.limbs := (f.mantissa_bounds hf).1
  have hlen : 1 ≤ f.limbs.length := by
    cases hx : f.limbs with
    | nil => exact absurd hx hf.1
    | cons a as => simp
  have hn1 : 1 ≤ limbBits * f.limbs.length := by
    have : 1 ≤ limbBits := by unfold limbBits; omega
    calc 1 = 1 * 1 := rfl
      _ ≤ limbBits * f.limbs.length := Nat.mul_le_mul this hlen
  have hmq : (2:ℚ) ^ ((limbBits * f.limbs.length - 1 : Nat) : Int) ≤ (limbsVal f.limbs : ℚ) := by
    rw [← natCast_pow2_eq_zpow]
    exact_mod_cast hm
  unfold ArfFin.mag
  calc (2:ℚ) ^ (f.exp - 1)
      = 2 ^ ((limbBits * f.limbs.length - 1 : Nat) : Int) *
          2 ^ (f.exp - (limbBits : Int) * f.limbs.length) := by
        rw [← zpow_add₀ two_q_ne_zero]
        congr 1
        rw [Nat.cast_sub hn1]
        push_cast
        ring
    _ ≤ (limbsVal f.limbs : ℚ) * 2 ^ (f.exp - (limbBits : Int) * f.limbs.length) :=
        mul_le_mul_of_nonneg_right hmq (two_zpow_pos _).le

/-- With equal exponents, comparing magnitudes is comparing the mantissas
scaled to a common denominator. -/
theorem ArfFin.mag_lt_iff_nat (fx fy : ArfFin) (he : fx.exp = fy.exp) :
    fx.mag < fy.mag ↔
      limbsVal fx.limbs * limbBound ^ fy.limbs.length <
        limbsVal fy.limbs * limbBound ^ fx.limbs.length := by
  set u : Int := ((limbBits * fx.limbs.length : Nat) : Int) +
    ((limbBits * fy.limbs.length : Nat) : Int) - fx.exp with hu
  have hx2 : fx.mag * 2 ^ u =
      ((limbsVal fx.limbs * limbBound ^ fy.limbs.length : ℕ) : ℚ) := by
    unfold ArfFin.mag
    rw [mul_assoc, ← zpow_add₀ two_q_ne_zero]
    have he2 : fx.exp - (limbBits : Int) * fx.limbs.length + u =
        ((limbBits * fy.limbs.length : Nat) : Int) := by
      rw [hu]; push_cast; ring
    rw [he2, ← natCast_pow2_eq_zpow]
    have : limbBound ^ fy.limbs.length = 2 ^ (limbBits * fy.limbs.length) := by
      unfold limbBound; rw [← pow_mul]
    rw [this]
    push_cast
    ring
  have hy2 : fy.mag * 2 ^ u =
      ((limbsVal fy.limbs * limbBound ^ fx.limbs.length : ℕ) : ℚ) := by
    unfold ArfFin.mag
    rw [mul_assoc, ← zpow_add₀ two_q_ne_zero]
    have he2 : fy.exp - (limbBits : Int) * fy.limbs.length + u =
        ((limbBits * fx.limbs.length : Nat) : Int) := by
      rw [hu, ← he]; push_cast; ring
    rw [he2, ← natCast_pow2_eq_zpow]
    have : limbBound ^ fx.limbs.length = 2 ^ (limbBits * fx.limbs.length) := by
      unfold limbBound; rw [← pow_mul]
    rw [this]
    push_cast
    ring
  constructor
  · intro h
    have h2 := mul_lt_mul_of_pos_right h (two_zpow_pos u)
    rw [hx2, hy2] at h2
    exact_mod_cast h2
  · intro h
    have h2 : fx.mag * 2 ^ u < fy.mag * 2 ^ u := by
      rw [hx2, hy2]
      exact_mod_cast h
    exact lt_of_mul_lt_mul_right h2 (two_zpow_pos u).le

/-- With equal exponent, limb count and mantissa value, the values agree. -/
theorem ArfFin.val_eq_of_eq (fx fy : ArfFin) (hs : fx.sign = fy.sign)
    (he : fx.exp = fy.exp) (hlen : fx.limbs.length = fy.limbs.length)
    (hm : limbsVal fx.limbs = limbsVal fy.limbs) : fx.val = fy.val := by
  unfold ArfFin.val
  rw [hs, he, hlen, hm]

/-- A nonempty limb vector with nonzero low limb has positive value. -/
theorem limbsVal_pos_of_head (xs : List Nat) (hne : xs ≠ [])
    (hh : ∀ l ∈ xs.head?, l ≠ 0) : 0 < limbsVal xs := by
  cases xs with
  | nil => exact absurd rfl hne
  | cons x rest =>
    have hx : x ≠ 0 := hh x (by simp)
    have : limbsVal (x :: rest) = x + limbBound * limbsVal rest := rfl
    omega

/-- Taking a nonzero number of limbs from a vector with nonzero low limb
gives a positive value. -/
theorem limbsVal_take_pos (xs : List Nat) (d : Nat) (hd0 : d ≠ 0) (hne : xs ≠ [])
    (hh : ∀ l ∈ xs.head?, l ≠ 0) : 0 < limbsVal (xs.take d) := by
  cases xs with
  | nil => exact absurd rfl hne
  | cons a as =>
    obtain ⟨k, hk⟩ : ∃ k, d = k + 1 := ⟨d - 1, by omega⟩
    subst hk
    have ha : a ≠ 0 := hh a (by simp)
    have hv : limbsVal (a :: List.take k as) = a + limbBound * limbsVal (List.take k as) := rfl
    rw [List.take_succ_cons]
    omega

theorem limbCmpBE_swap (xs ys : List Nat) : limbCmpBE ys xs = - limbCmpBE xs ys := by
  induction xs generalizing ys with
  | nil => cases ys <;> simp [limbCmpBE]
  | cons x xs ih =>
    cases ys with
    | nil => simp [limbCmpBE]
    | cons y ys =>
      by_cases h1 : x < y
      · have h2 : ¬ y < x := by omega
        simp [limbCmpBE, h1, h2]
      · by_cases h2 : y < x
        · simp [limbCmpBE, h1, h2]
        · have hxy : x = y := by omega
          subst hxy
          simp [limbCmpBE, h1, h2, ih]

theorem mpn_cmp_swap (xs ys : List Nat) : mpn_cmp ys xs = - mpn_cmp xs ys :=
  limbCmpBE_swap xs.reverse ys.reverse

/-- Trichotomy for the aligned mantissa comparison performed by `arf_cmp`
when the exponents are equal and `xls` has at least as many limbs:
the result of `mpn_cmp` on the overlapping (top-aligned) limbs, together
with the length tie-break, decides the comparison of the scaled mantissas. -/
theorem aligned_tri (xls yls : List Nat)
    (hxb : ∀ l ∈ xls, l < limbBound) (hyb : ∀ l ∈ yls, l < limbBound)
    (hxh : ∀ l ∈ xls.head?, l ≠ 0)
    (hd : yls.length ≤ xls.length) :
    (mpn_cmp (xls.drop (xls.length - yls.length)) yls = -1 ∧
       limbsVal xls * limbBound ^ yls.length < limbsVal yls * limbBound ^ xls.length) ∨
    (mpn_cmp (xls.drop (xls.length - yls.length)) yls = 0 ∧ xls.length = yls.length ∧
       limbsVal xls = limbsVal yls) ∨
    (mpn_cmp (xls.drop (xls.length - yls.length)) yls = 0 ∧ yls.length < xls.length ∧
       limbsVal yls * limbBound ^ xls.length < limbsVal xls * limbBound ^ yls.length) ∨
    (mpn_cmp (xls.drop (xls.length - yls.length)) yls = 1 ∧
       limbsVal yls * limbBound ^ xls.length < limbsVal xls * limbBound ^ yls.length) := by
  set d := xls.length - yls.length with hdd
  have hdrop_len : (xls.drop d).length = yls.length := by
    rw [List.length_drop]; omega
  have htake_len : (xls.take d).length = d := by
    rw [List.length_take]; omega
  have hsplit : xls.take d ++ xls.drop d = xls := List.take_append_drop d xls
  have hval : limbsVal xls =
      limbsVal (xls.take d) + limbBound ^ d * limbsVal (xls.drop d) := by
    conv_lhs => rw [← hsplit]
    rw [limbsVal_append, htake_len]
  have hxl_lt : limbsVal (xls.take d) < limbBound ^ d := by
    have hb : ∀ l ∈ xls.take d, l < limbBound := fun l hl => hxb l (List.mem_of_mem_take hl)
    have := limbsVal_lt _ hb
    rwa [htake_len] at this
  have hpow : limbBound ^ xls.length = limbBound ^ d * limbBound ^ yls.length := by
    rw [← pow_add]; congr 1; omega
  have hBpos : 0 < limbBound ^ yls.length := Nat.pos_pow_of_pos _ limbBound_pos
  have hcmp := mpn_cmp_spec (xls.drop d) yls hdrop_len
    (fun l hl => hxb l (List.mem_of_mem_drop hl)) hyb
  rcases hcmp with ⟨h0, heq⟩ | ⟨h1, hlt⟩ | ⟨h1, hlt⟩
  · by_cases hdo : d = 0
    · right; left
      have hxy : xls = yls := by
        have : xls.drop 0 = xls := List.drop_zero xls
        rw [hdo] at heq
        rw [this] at heq
        exact heq
      exact ⟨h0, by omega, by rw [hxy]⟩
    · right; right; left
      refine ⟨h0, by omega, ?_⟩
      have hxne : xls ≠ [] := by
        intro hnil
        rw [hnil] at hdd
        simp at hdd
        omega
      have hxh2 : 0 < limbsVal (xls.take d) := limbsVal_take_pos xls d hdo hxne hxh
      have hxh3 : limbsVal (xls.drop d) = limbsVal yls := by rw [heq]
      calc limbsVal yls * limbBound ^ xls.length
          = (limbBound ^ d * limbsVal yls) * limbBound ^ yls.length := by
            rw [hpow]; ring
        _ < limbsVal xls * limbBound ^ yls.length := by
            refine (Nat.mul_lt_mul_right hBpos).mpr ?_
            rw [hval, hxh3]
            omega
  · left
    refine ⟨h1, ?_⟩
    calc limbsVal xls * limbBound ^ yls.length
        < (limbBound ^ d * limbsVal yls) * limbBound ^ yls.length := by
          refine (Nat.mul_lt_mul_right hBpos).mpr ?_
          rw [hval]
          have step1 : limbsVal (xls.take d) + limbBound ^ d * limbsVal (xls.drop d)
              < limbBound ^ d * (limbsVal (xls.drop d) + 1) := by
            have : limbBound ^ d * (limbsVal (xls.drop d) + 1)
                = limbBound ^ d * limbsVal (xls.drop d) + limbBound ^ d := by ring
            omega
          have step2 : limbBound ^ d * (limbsVal (xls.drop d) + 1)
              ≤ limbBound ^ d * limbsVal yls :=
            Nat.mul_le_mul_left _ (by omega)
          omega
      _ = limbsVal yls * limbBound ^ xls.length := by rw [hpow]; ring
  · right; right; right
    refine ⟨h1, ?_⟩
    calc limbsVal yls * limbBound ^ xls.length
        = (limbBound ^ d * limbsVal yls) * limbBound ^ yls.length := by
          rw [hpow]; ring
      _ < limbsVal xls * limbBound ^ yls.length := by
          refine (Nat.mul_lt_mul_right hBpos).mpr ?_
          rw [hval]
          have hBd : 0 < limbBound ^ d := Nat.pos_pow_of_pos _ limbBound_pos
          have step : limbBound ^ d * limbsVal yls < limbBound ^ d * limbsVal (xls.drop d) :=
            (Nat.mul_lt_mul_left hBd).mpr hlt
          omega

theorem ratSign_of_neg {q : ℚ} (h : q < 0) : ratSign q = -1 := by
  unfold ratSign; rw [if_pos h]

theorem ratSign_of_pos {q : ℚ} (h : 0 < q) : ratSign q = 1 := by
  unfold ratSign; rw [if_neg (by linarith), if_pos h]

theorem ratSign_of_eq {q : ℚ} (h : q = 0) : ratSign q = 0 := by
  unfold ratSign; rw [if_neg (by simp [h]), if_neg (by simp [h])]

theorem cmp_out_absLt (fx fy : ArfFin)
    (hs : fx.sign = fy.sign) (h : fx.mag < fy.mag) :
    (if (!fx.sign) = true then (-1:Int) else 1) = ratSign (fx.val - fy.val) := by
  have hvx := fx.val_eq_sign_mag
  have hvy := fy.val_eq_sign_mag
  rw [← hs] at hvy
  cases hsx : fx.sign with
  | false =>
    rw [hsx] at hvx hvy
    simp only [Bool.false_eq_true, if_false, one_mul] at hvx hvy
    rw [Bool.not_false, if_pos rfl]
    symm
    apply ratSign_of_neg
    rw [hvx, hvy]
    linarith
  | true =>
    rw [hsx] at hvx hvy
    simp only [if_pos, neg_one_mul] at hvx hvy
    rw [Bool.not_true, if_neg (by simp)]
    symm
    apply ratSign_of_pos
    rw [hvx, hvy]
    linarith

theorem cmp_out_absGt (fx fy : ArfFin)
    (hs : fx.sign = fy.sign) (h : fy.mag < fx.mag) :
    (if fx.sign = true then (-1:Int) else 1) = ratSign (fx.val - fy.val) := by
  have hvx := fx.val_eq_sign_mag
  have hvy := fy.val_eq_sign_mag
  rw [← hs] at hvy
  cases hsx : fx.sign with
  | false =>
    rw [hsx] at hvx hvy
    simp only [Bool.false_eq_true, if_false, one_mul] at hvx hvy
    rw [if_neg (by simp)]
    symm
    apply ratSign_of_pos
    rw [hvx, hvy]
    linarith
  | true =>
    rw [hsx] at hvx hvy
    simp only [if_pos, neg_one_mul] at hvx hvy
    rw [if_pos rfl]
    symm
    apply ratSign_of_neg
    rw [hvx, hvy]
    linarith

theorem cmp_out_signDiff (fx fy : ArfFin) (hx : fx.WF) (hy : fy.WF)
    (hs : fx.sign ≠ fy.sign) :
    (if fx.sign = true then (-1:Int) else 1) = ratSign (fx.val - fy.val) := by
  have hmx := fx.mag_pos hx
  have hmy := fy.mag_pos hy
  have hvx := fx.val_eq_sign_mag
  have hvy := fy.val_eq_sign_mag
  cases hsx : fx.sign with
  | false =>
    have hsy : fy.sign = true := by
      cases hsy : fy.sign
      · rw [hsx, hsy] at hs; exact absurd rfl hs
      · rfl
    rw [hsx] at hvx
    rw [hsy] at hvy
    simp only [Bool.false_eq_true, if_false, if_pos, one_mul, neg_one_mul] at hvx hvy
    rw [if_neg (by simp)]
    symm
    apply ratSign_of_pos
    rw [hvx, hvy]
    linarith
  | true =>
    have hsy : fy.sign = false := by
      cases hsy : fy.sign
      · rfl
      · rw [hsx, hsy] at hs; exact absurd rfl hs
    rw [hsx] at hvx
    rw [hsy] at hvy
    simp only [Bool.false_eq_true, if_false, if_pos, one_mul, neg_one_mul] at hvx hvy
    rw [if_pos rfl]
    symm
    apply ratSign_of_neg
    rw [hvx, hvy]
    linarith

theorem arf_cmp_fin_eq (fx fy : ArfFin) (hx : fx.WF) (hy : fy.WF) :
    arf_cmp (.fin fx) (.fin fy) = ratSign (fx.val - fy.val) := by
  simp only [arf_cmp, arf_is_special, Bool.or_self, Bool.false_eq_true, if_false]
  by_cases hsd : fx.sign = fy.sign
  · rw [if_neg (by simp [hsd])]
    by_cases he : fx.exp = fy.exp
    · have hec : fmpz_cmp fx.exp fy.exp = 0 := by simp [fmpz_cmp, he]
      rw [hec]
      rw [if_neg (by simp)]
      by_cases hn : fy.limbs.length ≤ fx.limbs.length
      · rw [if_pos hn]
        rcases aligned_tri fx.limbs fy.limbs hx.2.1 hy.2.1 hx.2.2.2 hn with
          ⟨hmc, hlt⟩ | ⟨hmc, hlen, hmv⟩ | ⟨hmc, hlen, hgt⟩ | ⟨hmc, hgt⟩
        · rw [hmc]
          rw [if_pos (by norm_num)]
          have hd : decide ((-1:Int) < 0) = true := by norm_num
          rw [hd, Bool.true_xor]
          exact cmp_out_absLt fx fy hsd ((fx.mag_lt_iff_nat fy he).mpr hlt)
        · rw [hmc]
          rw [if_neg (by norm_num), if_neg (by omega)]
          symm
          apply ratSign_of_eq
          rw [sub_eq_zero]
          exact ArfFin.val_eq_of_eq fx fy hsd he hlen hmv
        · rw [hmc]
          rw [if_neg (by norm_num), if_pos (by omega)]
          have hd : decide (fx.limbs.length < fy.limbs.length) = false := by
            simp; omega
          rw [hd, Bool.false_xor]
          exact cmp_out_absGt fx fy hsd ((fy.mag_lt_iff_nat fx he.symm).mpr hgt)
        · rw [hmc]
          rw [if_pos (by norm_num)]
          have hd : decide ((1:Int) < 0) = false := by norm_num
          rw [hd, Bool.false_xor]
          exact cmp_out_absGt fx fy hsd ((fy.mag_lt_iff_nat fx he.symm).mpr hgt)
      · rw [if_neg hn]
        have hle : fx.limbs.length ≤ fy.limbs.length := le_of_not_le hn
        have hswap : mpn_cmp fx.limbs (fy.limbs.drop (fy.limbs.length - fx.limbs.length)) =
            - mpn_cmp (fy.limbs.drop (fy.limbs.length - fx.limbs.length)) fx.limbs :=
          mpn_cmp_swap _ _
        rcases aligned_tri fy.limbs fx.limbs hy.2.1 hx.2.1 hy.2.2.2 hle with
          ⟨hmc, hlt⟩ | ⟨hmc, hlen, hmv⟩ | ⟨hmc, hlen, hgt⟩ | ⟨hmc, hgt⟩
        · rw [hswap, hmc]
          rw [if_pos (by norm_num)]
          have hd : decide (-(-1:Int) < 0) = false := by norm_num
          rw [hd, Bool.false_xor]
          exact cmp_out_absGt fx fy hsd ((fy.mag_lt_iff_nat fx he.symm).mpr hlt)
        · omega
        · rw [hswap, hmc]
          rw [if_neg (by norm_num), if_pos (by omega)]
          have hd : decide (fx.limbs.length < fy.limbs.length) = true := by
            simp; omega
          rw [hd, Bool.true_xor]
          exact cmp_out_absLt fx fy hsd ((fx.mag_lt_iff_nat fy he).mpr hgt)
        · rw [hswap, hmc]
          rw [if_pos (by norm_num)]
          have hd : decide (-(1:Int) < 0) = true := by norm_num
          rw [hd, Bool.true_xor]
          exact cmp_out_absLt fx fy hsd ((fx.mag_lt_iff_nat fy he).mpr hgt)
    · by_cases hel : fx.exp < fy.exp
      · have hec : fmpz_cmp fx.exp fy.exp = -1 := by simp [fmpz_cmp, hel]
        rw [hec]
        rw [if_pos (by norm_num)]
        have hd : decide ((-1:Int) < 0) = true := by norm_num
        rw [hd, Bool.true_xor]
        have hmag : fx.mag < fy.mag := by
          calc fx.mag < (2:ℚ) ^ fx.exp := fx.mag_lt hx
            _ ≤ (2:ℚ) ^ (fy.exp - 1) := zpow_le_zpow_right₀ (by norm_num) (by omega)
            _ ≤ fy.mag := fy.mag_ge hy
        exact cmp_out_absLt fx fy hsd hmag
      · have hgt : fy.exp < fx.exp := by omega
        have hec : fmpz_cmp fx.exp fy.exp = 1 := by
          unfold fmpz_cmp
          rw [if_neg (by omega), if_pos hgt]
        rw [hec]
        rw [if_pos (by norm_num)]
        have hd : decide ((1:Int) < 0) = false := by norm_num
        rw [hd, Bool.false_xor]
        have hmag : fy.mag < fx.mag := by
          calc fy.mag < (2:ℚ) ^ fy.exp := fy.mag_lt hy
            _ ≤ (2:ℚ) ^ (fx.exp - 1) := zpow_le_zpow_right₀ (by norm_num) (by omega)
            _ ≤ fx.mag := fx.mag_ge hx
        exact cmp_out_absGt fx fy hsd hmag
  · rw [if_pos (by simp [hsd])]
    exact cmp_out_signDiff fx fy hx hy hsd

/-! ## Well-formedness over the whole `arf` domain -/

/-- An `arf` value is well-formed when its finite payload (if any) satisfies
the normalization invariant. -/
def ArfWF : Arf → Prop
  | .fin f => f.WF
  | _ => True

instance : (x : Arf) → Decidable (ArfWF x)
  | .fin f => (inferInstance : Decidable f.WF)
  | .nan => .isTrue trivial
  | .pos_inf => .isTrue trivial
  | .neg_inf => .isTrue trivial
  | .zero => .isTrue trivial

theorem ratSign_lt_zero_iff (q : ℚ) : ratSign q < 0 ↔ q < 0 := by
  unfold ratSign
  split_ifs with h1 h2
  · simp [h1]
  · simp [h1]
  · simp [h1]

theorem ratSign_eq_zero_iff (q : ℚ) : ratSign q = 0 ↔ q = 0 := by
  unfold ratSign
  split_ifs with h1 h2
  · constructor
    · intro h; exact absurd h (by norm_num)
    · intro h; rw [h] at h1; exact absurd h1 (by norm_num)
  · constructor
    · intro h; exact absurd h (by norm_num)
    · intro h; rw [h] at h2; exact absurd h2 (by norm_num)
  · constructor
    · intro _; linarith
    · intro _; rfl

theorem ratSign_pos_iff (q : ℚ) : 0 < ratSign q ↔ 0 < q := by
  unfold ratSign
  split_ifs with h1 h2
  · constructor
    · intro h; exact absurd h (by norm_num)
    · intro h; linarith
  · simp [h2]
  · constructor
    · intro h; exact absurd h (by norm_num)
    · intro h; exact absurd h h2

theorem ratSign_sub_antisymm (a b : ℚ) : ratSign (a - b) = - ratSign (b - a) := by
  rcases lt_trichotomy a b with h | h | h
  · rw [ratSign_of_neg (by linarith), ratSign_of_pos (by linarith)]
  · rw [h, sub_self, ratSign_of_eq rfl]
    decide
  · rw [ratSign_of_pos (by linarith), ratSign_of_neg (by linarith)]
    rfl

theorem limbCmpBE_self (xs : List Nat) : limbCmpBE xs xs = 0 := by
  induction xs with
  | nil => rfl
  | cons x xs ih => simp [limbCmpBE, ih]

theorem mpn_cmp_self (xs : List Nat) : mpn_cmp xs xs = 0 :=
  limbCmpBE_self xs.reverse

/-- C5: `arf_cmp` is a trichotomous comparison on finite values that agrees
with the sign of the exact real difference: `arf_cmp x y` is negative, zero
or positive exactly as `x − y` is (its value in `ℚ`); in particular exactly
one of the three outcomes holds. -/
theorem arf_cmp_trichotomy_agrees (fx fy : ArfFin) (hx : fx.WF) (hy : fy.WF) :
    (arf_cmp (.fin fx) (.fin fy) < 0 ↔ fx.val < fy.val) ∧
    (arf_cmp (.fin fx) (.fin fy) = 0 ↔ fx.val = fy.val) ∧
    (0 < arf_cmp (.fin fx) (.fin fy) ↔ fy.val < fx.val) := by
  rw [arf_cmp_fin_eq fx fy hx hy]
  exact ⟨(ratSign_lt_zero_iff _).trans sub_neg,
    (ratSign_eq_zero_iff _).trans sub_eq_zero,
    (ratSign_pos_iff _).trans sub_pos⟩

/-- Witness for C5 at `x = 1` (one limb `2^63`, exponent 1) and `y = 3`
(one limb `3·2^62`, exponent 2). -/
theorem arf_cmp_trichotomy_agrees_witness :
    (arf_cmp (.fin ⟨false, [2^63], 1⟩) (.fin ⟨false, [3*2^62], 2⟩) < 0 ↔
      ArfFin.val ⟨false, [2^63], 1⟩ < ArfFin.val ⟨false, [3*2^62], 2⟩) ∧
    (arf_cmp (.fin ⟨false, [2^63], 1⟩) (.fin ⟨false, [3*2^62], 2⟩) = 0 ↔
      ArfFin.val ⟨false, [2^63], 1⟩ = ArfFin.val ⟨false, [3*2^62], 2⟩) ∧
    (0 < arf_cmp (.fin ⟨false, [2^63], 1⟩) (.fin ⟨false, [3*2^62], 2⟩) ↔
      ArfFin.val ⟨false, [3*2^62], 2⟩ < ArfFin.val ⟨false, [2^63], 1⟩) :=
  arf_cmp_trichotomy_agrees ⟨false, [2^63], 1⟩ ⟨false, [3*2^62], 2⟩
    (by decide) (by decide)

/-- C9: `arf_cmp` is antisymmetric over the entire value domain, special
values included: swapping the operands negates the result. -/
theorem arf_cmp_antisymm (x y : Arf) (hx : ArfWF x) (hy : ArfWF y) :
    arf_cmp x y = - arf_cmp y x := by
  cases x <;> cases y <;>
    first
      | (rw [arf_cmp_fin_eq _ _ hx hy, arf_cmp_fin_eq _ _ hy hx, ratSign_sub_antisymm])
      | (simp [arf_cmp, arf_equal, arf_is_special, arf_is_nan, arf_is_zero,
          arf_is_pos_inf, arf_is_neg_inf, arf_sgn])

/-- Witness for C9 at `x = +∞`, `y = 1`. -/
theorem arf_cmp_antisymm_witness :
    arf_cmp Arf.pos_inf (.fin ⟨false, [2^63], 1⟩) =
      - arf_cmp (.fin ⟨false, [2^63], 1⟩) Arf.pos_inf :=
  arf_cmp_antisymm Arf.pos_inf (.fin ⟨false, [2^63], 1⟩) (by decide) (by decide)

/-- Counterexample to C3 as stated: `arf_cmp` returns the neutral result 0
with NaN as its first operand and a non-NaN (finite, well-formed) second
operand, so 0 is not returned only in the both-NaN case. -/
theorem arf_cmp_nan_counterexample :
    arf_cmp Arf.nan (.fin ⟨false, [2^63], 1⟩) = 0 ∧
      arf_is_nan Arf.nan = true ∧
      arf_is_nan (.fin ⟨false, [2^63], 1⟩) = false ∧
      ArfWF (.fin ⟨false, [2^63], 1⟩) := by
  refine ⟨?_, rfl, rfl, by decide⟩
  rfl

/-- C3 amended: `arf_cmp` returns the neutral result 0 whenever at least one
operand is NaN — in particular when both are NaN — uniformly and
symmetrically in the two arguments. -/
theorem arf_cmp_nan (x y : Arf) (h : arf_is_nan x = true ∨ arf_is_nan y = true) :
    arf_cmp x y = 0 := by
  have hsp : (arf_is_special x || arf_is_special y) = true := by
    rcases h with h | h
    · cases x <;> simp_all [arf_is_nan, arf_is_special]
    · cases y <;> simp_all [arf_is_nan, arf_is_special]
  by_cases heq : arf_equal x y = true
  · simp [arf_cmp, hsp, heq]
  · have hnan : (arf_is_nan x || arf_is_nan y) = true := by
      rcases h with h | h <;> simp [h]
    simp [arf_cmp, hsp, heq, hnan]

/-- Witness for the amended C3 at `x = NaN`, `y = 0`. -/
theorem arf_cmp_nan_witness : arf_cmp Arf.nan Arf.zero = 0 :=
  arf_cmp_nan Arf.nan Arf.zero (Or.inl rfl)

/-- C4: on finite well-formed operands, `arf_cmp` follows the documented
procedure — differing signs decide the result; with equal signs, the
exponent comparison decides (with the common sign applied); with equal
signs, equal exponents and equal overlapping (top-aligned) limbs, the
mantissa with nonzero trailing limbs beyond the shorter one is larger in
absolute value and decides (with the common sign applied) — and the whole
procedure agrees with comparing the exact infinite-precision values. -/
theorem arf_cmp_procedure (fx fy : ArfFin) (hx : fx.WF) (hy : fy.WF) :
    (fx.sign ≠ fy.sign →
        arf_cmp (.fin fx) (.fin fy) = (if fx.sign then -1 else 1)) ∧
    (fx.sign = fy.sign → fx.exp ≠ fy.exp →
        arf_cmp (.fin fx) (.fin fy) =
          (if xor (decide (fx.exp < fy.exp)) fx.sign then -1 else 1)) ∧
    (fx.sign = fy.sign → fx.exp = fy.exp →
      fy.limbs.length < fx.limbs.length →
      fx.limbs.drop (fx.limbs.length - fy.limbs.length) = fy.limbs →
        fy.mag < fx.mag ∧
          arf_cmp (.fin fx) (.fin fy) = (if fx.sign then -1 else 1)) ∧
    arf_cmp (.fin fx) (.fin fy) = ratSign (fx.val - fy.val) := by
  refine ⟨?_, ?_, ?_, arf_cmp_fin_eq fx fy hx hy⟩
  · intro hsd
    simp only [arf_cmp, arf_is_special, Bool.or_self, Bool.false_eq_true, if_false]
    rw [if_pos (by simp [hsd])]
  · intro hs he
    rw [arf_cmp_fin_eq fx fy hx hy]
    by_cases hel : fx.exp < fy.exp
    · have hd : decide (fx.exp < fy.exp) = true := by simp [hel]
      rw [hd, Bool.true_xor]
      have hmag : fx.mag < fy.mag := by
        calc fx.mag < (2:ℚ) ^ fx.exp := fx.mag_lt hx
          _ ≤ (2:ℚ) ^ (fy.exp - 1) := zpow_le_zpow_right₀ (by norm_num) (by omega)
          _ ≤ fy.mag := fy.mag_ge hy
      exact (cmp_out_absLt fx fy hs hmag).symm
    · have hd : decide (fx.exp < fy.exp) = false := by simp [hel]
      rw [hd, Bool.false_xor]
      have hmag : fy.mag < fx.mag := by
        calc fy.mag < (2:ℚ) ^ fy.exp := fy.mag_lt hy
          _ ≤ (2:ℚ) ^ (fx.exp - 1) := zpow_le_zpow_right₀ (by norm_num) (by omega)
          _ ≤ fx.mag := fx.mag_ge hx
      exact (cmp_out_absGt fx fy hs hmag).symm
  · intro hs he hlen hdrop
    have hmpn : mpn_cmp (fx.limbs.drop (fx.limbs.length - fy.limbs.length)) fy.limbs = 0 := by
      rw [hdrop]; exact mpn_cmp_self fy.limbs
    rcases aligned_tri fx.limbs fy.limbs hx.2.1 hy.2.1 hx.2.2.2 (le_of_lt hlen) with
      ⟨hmc, _⟩ | ⟨_, hl2, _⟩ | ⟨_, _, hgt⟩ | ⟨hmc, _⟩
    · rw [hmpn] at hmc; exact absurd hmc (by norm_num)
    · omega
    · have hmag : fy.mag < fx.mag := (fy.mag_lt_iff_nat fx he.symm).mpr hgt
      refine ⟨hmag, ?_⟩
      rw [arf_cmp_fin_eq fx fy hx hy]
      exact (cmp_out_absGt fx fy hs hmag).symm
    · rw [hmpn] at hmc; exact absurd hmc (by norm_num)

/-- Witness for C4 at `x = 2 + 2^{-64}` (two limbs) and `y = 2` (one limb),
exercising the longer-mantissa tie-break. -/
theorem arf_cmp_procedure_witness :
    ((⟨false, [1, 2^63], 2⟩ : ArfFin).sign ≠ (⟨false, [2^63], 2⟩ : ArfFin).sign →
        arf_cmp (.fin ⟨false, [1, 2^63], 2⟩) (.fin ⟨false, [2^63], 2⟩) =
          (if (⟨false, [1, 2^63], 2⟩ : ArfFin).sign then -1 else 1)) ∧
    ((⟨false, [1, 2^63], 2⟩ : ArfFin).sign = (⟨false, [2^63], 2⟩ : ArfFin).sign →
      (⟨false, [1, 2^63], 2⟩ : ArfFin).exp ≠ (⟨false, [2^63], 2⟩ : ArfFin).exp →
        arf_cmp (.fin ⟨false, [1, 2^63], 2⟩) (.fin ⟨false, [2^63], 2⟩) =
          (if xor (decide ((⟨false, [1, 2^63], 2⟩ : ArfFin).exp <
              (⟨false, [2^63], 2⟩ : ArfFin).exp)) (⟨false, [1, 2^63], 2⟩ : ArfFin).sign
            then -1 else 1)) ∧
    ((⟨false, [1, 2^63], 2⟩ : ArfFin).sign = (⟨false, [2^63], 2⟩ : ArfFin).sign →
      (⟨false, [1, 2^63], 2⟩ : ArfFin).exp = (⟨false, [2^63], 2⟩ : ArfFin).exp →
      (⟨false, [2^63], 2⟩ : ArfFin).limbs.length <
        (⟨false, [1, 2^63], 2⟩ : ArfFin).limbs.length →
      (⟨false, [1, 2^63], 2⟩ : ArfFin).limbs.drop
          ((⟨false, [1, 2^63], 2⟩ : ArfFin).limbs.length -
            (⟨false, [2^63], 2⟩ : ArfFin).limbs.length) =
        (⟨false, [2^63], 2⟩ : ArfFin).limbs →
        (⟨false, [2^63], 2⟩ : ArfFin).mag < (⟨false, [1, 2^63], 2⟩ : ArfFin).mag ∧
          arf_cmp (.fin ⟨false, [1, 2^63], 2⟩) (.fin ⟨false, [2^63], 2⟩) =
            (if (⟨false, [1, 2^63], 2⟩ : ArfFin).sign then -1 else 1)) ∧
    arf_cmp (.fin ⟨false, [1, 2^63], 2⟩) (.fin ⟨false, [2^63], 2⟩) =
      ratSign ((⟨false, [1, 2^63], 2⟩ : ArfFin).val - (⟨false, [2^63], 2⟩ : ArfFin).val) :=
  arf_cmp_procedure ⟨false, [1, 2^63], 2⟩ ⟨false, [2^63], 2⟩ (by decide) (by decide)

/-! ## The `mag` magnitude-bound type

The implementations of the `mag` operations are not part of the source tree
given (only their documentation `doc/source/mag.rst` is), so the operations
below are modelled from the specification and that documentation. -/

/-- `MAG_BITS`: the fixed mantissa precision of the `mag` type (30 bits). -/
def MAG_BITS : Nat := 30

/-- Modelled from the spec: a `mag_t` is an unsigned floating-point value
with a fixed 30-bit mantissa and an `fmpz` exponent; the only special
values are zero and positive infinity (no NaN).  A finite value is
`man · 2 ^ (exp − MAG_BITS)`. -/
inductive Mag where
  | zero : Mag
  | inf : Mag
  | fin (man : Nat) (exp : Int) : Mag
deriving DecidableEq

/-- Normalization invariant of a finite `mag`: the 30-bit mantissa has its
top bit set. -/
def Mag.WF : Mag → Prop
  | .fin man _ => 2 ^ (MAG_BITS - 1) ≤ man ∧ man < 2 ^ MAG_BITS
  | _ => True

instance : (x : Mag) → Decidable (Mag.WF x)
  | .fin _ _ => inferInstanceAs (Decidable (_ ∧ _))
  | .zero => .isTrue trivial
  | .inf => .isTrue trivial

/-- Exact dyadic value of a non-infinite `mag` (the representation itself is
an exact dyadic rational; `Mag.val .inf` is a junk value, never used). -/
def Mag.val : Mag → ℚ
  | .zero => 0
  | .inf => 0
  | .fin man exp => (man : ℚ) * 2 ^ (exp - MAG_BITS)

/-- The bound relation: `x.Bounds q` states that the `mag` value `x` is a
valid upper bound for the (unknown true) quantity `q`: infinity bounds
everything, other values bound everything up to their exact value. -/
def Mag.Bounds : Mag → ℚ → Prop
  | .inf, _ => True
  | .zero, q => q ≤ 0
  | .fin man exp, q => q ≤ (Mag.fin man exp).val

/-- Modelled from the spec: normalize a value `P · 2 ^ t` (with `P` a
nonnegative integer) to a `mag`, rounding the mantissa up (never down) when
it does not fit in `MAG_BITS` bits.  This is the shared upward rounding
step of the upper-bound producing `mag` operations. -/
def magOfNatUp (P : Nat) (t : Int) : Mag :=
  if P = 0 then .zero
  else
    let sz := Nat.size P
    if sz ≤ MAG_BITS then .fin (P * 2 ^ (MAG_BITS - sz)) (t + sz)
    else
      let k := sz - MAG_BITS
      let q := (P + 2 ^ k - 1) / 2 ^ k
      if q = 2 ^ MAG_BITS then .fin (2 ^ (MAG_BITS - 1)) (t + sz + 1)
      else .fin q (t + sz)

/-- Modelled from the spec: `mag_mul(z, x, y)` sets `z` to an upper bound
for `x · y`: zero if either factor is zero, infinity if either remaining
factor is infinite, otherwise the exact product of the dyadic values
rounded up to a 30-bit mantissa. -/
def mag_mul : Mag → Mag → Mag
  | .zero, _ => .zero
  | _, .zero => .zero
  | .inf, _ => .inf
  | _, .inf => .inf
  | .fin mx ex, .fin my ey => magOfNatUp (mx * my) (ex + ey - 2 * MAG_BITS)

/-- Modelled from the spec: `mag_mul_2exp_fmpz(z, x, e)` sets `z` to
`x · 2 ^ e`, exactly, by shifting the exponent. -/
def mag_mul_2exp : Mag → Int → Mag
  | .zero, _ => .zero
  | .inf, _ => .inf
  | .fin man exp, e => .fin man (exp + e)

/-- Modelled from the spec: `mag_add_2exp_fmpz(z, x, e)` sets `z` to an
upper bound for `x + 2 ^ e`: the exact sum, written as an integer times a
power of two, rounded up to a 30-bit mantissa. -/
def mag_add_2exp : Mag → Int → Mag
  | .inf, _ => .inf
  | .zero, e => .fin (2 ^ (MAG_BITS - 1)) (e + 1)
  | .fin man exp, e =>
      let t : Int := min (exp - MAG_BITS) e
      magOfNatUp (man * 2 ^ (exp - MAG_BITS - t).toNat + 2 ^ (e - t).toNat) t

/-- `mag_is_inf` (doc: returns nonzero iff `x` is positive infinity). -/
def mag_is_inf : Mag → Bool
  | .inf => true
  | _ => false

/-- Modelled from the spec: `mag_is_finite` returns nonzero iff `x` is not
positive infinity (there being no NaN, every non-infinite value is finite). -/
def mag_is_finite : Mag → Bool
  | .inf => false
  | _ => true

/-! ## Correctness of the shared upward rounding step -/

theorem q_pow_cast_mul_zpow (m a : Nat) (b : Int) :
    ((m * 2 ^ a : Nat) : ℚ) * (2:ℚ) ^ b = (m : ℚ) * (2:ℚ) ^ ((a : Int) + b) := by
  push_cast
  rw [mul_assoc, ← zpow_natCast (2:ℚ) a, ← zpow_add₀ two_q_ne_zero]

/-- The ceiling-divide used by `magOfNatUp` never under-approximates. -/
theorem ceil_div_ge (P m : Nat) (hP : 1 ≤ P) (hm : 0 < m) :
    P ≤ (P + m - 1) / m * m := by
  have hsum : P + m - 1 = (P - 1) + m := by omega
  rw [hsum, Nat.add_div_right _ hm, Nat.add_mul, one_mul, Nat.mul_comm]
  have hdm := Nat.div_add_mod (P - 1) m
  have hmod : (P - 1) % m < m := Nat.mod_lt _ hm
  generalize hX : m * ((P - 1) / m) = X at hdm ⊢
  omega

theorem magOfNatUp_val_ge (P : Nat) (t : Int) :
    (P : ℚ) * 2 ^ t ≤ (magOfNatUp P t).val := by
  have hMB : MAG_BITS = 30 := rfl
  by_cases hP : P = 0
  · subst hP
    simp [magOfNatUp, Mag.val]
  · have hP1 : 1 ≤ P := by omega
    unfold magOfNatUp
    rw [if_neg hP]
    have hszP : P < 2 ^ Nat.size P := Nat.lt_size_self P
    by_cases hle : Nat.size P ≤ MAG_BITS
    · rw [if_pos hle]
      simp only [Mag.val]
      rw [q_pow_cast_mul_zpow]
      have he : ((MAG_BITS - Nat.size P : Nat) : Int) + (t + Nat.size P - MAG_BITS) = t := by
        omega
      rw [he]
    · rw [if_neg hle]
      have hkpos : 0 < 2 ^ (Nat.size P - MAG_BITS) := Nat.pos_pow_of_pos _ (by norm_num)
      have hqk : P ≤ (P + 2 ^ (Nat.size P - MAG_BITS) - 1) / 2 ^ (Nat.size P - MAG_BITS) *
          2 ^ (Nat.size P - MAG_BITS) := ceil_div_ge P _ hP1 hkpos
      by_cases hcar : (P + 2 ^ (Nat.size P - MAG_BITS) - 1) / 2 ^ (Nat.size P - MAG_BITS) =
          2 ^ MAG_BITS
      · rw [if_pos hcar]
        simp only [Mag.val]
        have h1 : (P : ℚ) ≤ ((2 ^ (MAG_BITS - 1) * 2 ^ (Nat.size P - MAG_BITS + 1) : Nat) : ℚ) := by
          have : 2 ^ (MAG_BITS - 1) * 2 ^ (Nat.size P - MAG_BITS + 1) = 2 ^ Nat.size P := by
            rw [← pow_add]
            congr 1
            omega
          rw [this]
          exact_mod_cast hszP.le
        calc (P : ℚ) * 2 ^ t
            ≤ ((2 ^ (MAG_BITS - 1) * 2 ^ (Nat.size P - MAG_BITS + 1) : Nat) : ℚ) * 2 ^ t :=
              mul_le_mul_of_nonneg_right h1 (two_zpow_pos t).le
          _ = ((2 ^ (MAG_BITS - 1) : Nat) : ℚ) *
                2 ^ (t + Nat.size P + 1 - MAG_BITS) := by
              rw [q_pow_cast_mul_zpow]
              congr 2
              omega
      · rw [if_neg hcar]
        simp only [Mag.val]
        calc (P : ℚ) * 2 ^ t
            ≤ (((P + 2 ^ (Nat.size P - MAG_BITS) - 1) / 2 ^ (Nat.size P - MAG_BITS) *
                2 ^ (Nat.size P - MAG_BITS) : Nat) : ℚ) * 2 ^ t :=
              mul_le_mul_of_nonneg_right (by exact_mod_cast hqk) (two_zpow_pos t).le
          _ = (((P + 2 ^ (Nat.size P - MAG_BITS) - 1) / 2 ^ (Nat.size P - MAG_BITS) : Nat) : ℚ) *
                2 ^ (t + Nat.size P - MAG_BITS) := by
              rw [q_pow_cast_mul_zpow]
              congr 2
              omega

theorem magOfNatUp_wf (P : Nat) (t : Int) : (magOfNatUp P t).WF := by
  have hMB : MAG_BITS = 30 := rfl
  by_cases hP : P = 0
  · subst hP
    simp [magOfNatUp, Mag.WF]
  · have hP1 : 1 ≤ P := by omega
    have hszP : P < 2 ^ Nat.size P := Nat.lt_size_self P
    have hsz1 : 1 ≤ Nat.size P := by
      have := Nat.size_pos.mpr (by omega : 0 < P)
      omega
    have hszlo : 2 ^ (Nat.size P - 1) ≤ P := by
      have := Nat.lt_size.mp (by omega : Nat.size P - 1 < Nat.size P)
      exact this
    unfold magOfNatUp
    rw [if_neg hP]
    by_cases hle : Nat.size P ≤ MAG_BITS
    · rw [if_pos hle]
      constructor
      · calc 2 ^ (MAG_BITS - 1)
            = 2 ^ (Nat.size P - 1) * 2 ^ (MAG_BITS - Nat.size P) := by
              rw [← pow_add]
              congr 1
              omega
          _ ≤ P * 2 ^ (MAG_BITS - Nat.size P) :=
              Nat.mul_le_mul_right _ hszlo
      · calc P * 2 ^ (MAG_BITS - Nat.size P)
            < 2 ^ Nat.size P * 2 ^ (MAG_BITS - Nat.size P) :=
              (Nat.mul_lt_mul_right (Nat.pos_pow_of_pos _ (by norm_num))).mpr hszP
          _ = 2 ^ MAG_BITS := by
              rw [← pow_add]
              congr 1
              omega
    · rw [if_neg hle]
      have hkpos : 0 < 2 ^ (Nat.size P - MAG_BITS) := Nat.pos_pow_of_pos _ (by norm_num)
      have hqlo : 2 ^ (MAG_BITS - 1) ≤
          (P + 2 ^ (Nat.size P - MAG_BITS) - 1) / 2 ^ (Nat.size P - MAG_BITS) := by
        rw [Nat.le_div_iff_mul_le hkpos, ← pow_add]
        have h1 : 2 ^ (MAG_BITS - 1 + (Nat.size P - MAG_BITS)) = 2 ^ (Nat.size P - 1) := by
          congr 1
          omega
        rw [h1]
        omega
      have hqhi : (P + 2 ^ (Nat.size P - MAG_BITS) - 1) / 2 ^ (Nat.size P - MAG_BITS) <
          2 ^ MAG_BITS + 1 := by
        rw [Nat.div_lt_iff_lt_mul hkpos]
        have h2 : 2 ^ Nat.size P = 2 ^ MAG_BITS * 2 ^ (Nat.size P - MAG_BITS) := by
          rw [← pow_add]
          congr 1
          omega
        have h3 : (2 ^ MAG_BITS + 1) * 2 ^ (Nat.size P - MAG_BITS) =
            2 ^ MAG_BITS * 2 ^ (Nat.size P - MAG_BITS) + 2 ^ (Nat.size P - MAG_BITS) := by
          ring
        rw [h3, ← h2]
        omega
      by_cases hcar : (P + 2 ^ (Nat.size P - MAG_BITS) - 1) / 2 ^ (Nat.size P - MAG_BITS) =
          2 ^ MAG_BITS
      · rw [if_pos hcar]
        constructor
        · exact le_refl _
        · rw [hMB]
          norm_num
      · rw [if_neg hcar]
        exact ⟨hqlo, by omega⟩

/-- Any quantity below `P · 2 ^ t` is validly bounded by `magOfNatUp P t`. -/
theorem magOfNatUp_bounds (P : Nat) (t : Int) (q : ℚ) (h : q ≤ (P:ℚ) * 2 ^ t) :
    (magOfNatUp P t).Bounds q := by
  have hv := magOfNatUp_val_ge P t
  cases hres : magOfNatUp P t with
  | inf => trivial
  | zero =>
    rw [hres] at hv
    show q ≤ 0
    calc q ≤ (P:ℚ) * 2 ^ t := h
      _ ≤ (Mag.zero).val := hv
      _ = 0 := rfl
  | fin m e =>
    rw [hres] at hv
    show q ≤ (Mag.fin m e).val
    exact le_trans h hv

/-- C6: `mag_mul` is a valid upper-bound multiplication in the monotone
bound algebra: whenever `x` bounds a nonnegative quantity `A` and `y`
bounds a nonnegative quantity `B`, the product `mag_mul x y` bounds `A·B`
(in particular, the result is at least the product of the represented
dyadic values). -/
theorem mag_mul_bound (x y : Mag) (A B : ℚ) (hA : x.Bounds A) (hB : y.Bounds B)
    (hA0 : 0 ≤ A) (hB0 : 0 ≤ B) : (mag_mul x y).Bounds (A * B) := by
  cases x with
  | zero =>
    have hA' : A = 0 := le_antisymm hA hA0
    cases y with
    | zero => show A * B ≤ 0; rw [hA', zero_mul]
    | inf => show A * B ≤ 0; rw [hA', zero_mul]
    | fin my ey => show A * B ≤ 0; rw [hA', zero_mul]
  | inf =>
    cases y with
    | zero =>
      have hB' : B = 0 := le_antisymm hB hB0
      show A * B ≤ 0
      rw [hB', mul_zero]
    | inf => trivial
    | fin my ey => trivial
  | fin mx ex =>
    cases y with
    | zero =>
      have hB' : B = 0 := le_antisymm hB hB0
      show A * B ≤ 0
      rw [hB', mul_zero]
    | inf => trivial
    | fin my ey =>
      apply magOfNatUp_bounds
      have hA' : A ≤ (Mag.fin mx ex).val := hA
      have hB' : B ≤ (Mag.fin my ey).val := hB
      have hvx : (0:ℚ) ≤ (Mag.fin mx ex).val := by
        simp only [Mag.val]
        positivity
      have h1 : A * B ≤ (Mag.fin mx ex).val * (Mag.fin my ey).val :=
        mul_le_mul hA' hB' hB0 hvx
      have h2 : (Mag.fin mx ex).val * (Mag.fin my ey).val =
          ((mx * my : ℕ) : ℚ) * 2 ^ (ex + ey - 2 * (MAG_BITS : ℤ)) := by
        simp only [Mag.val]
        push_cast
        calc (mx:ℚ) * 2 ^ (ex - (MAG_BITS:ℤ)) * ((my:ℚ) * 2 ^ (ey - (MAG_BITS:ℤ)))
            = (mx:ℚ) * (my:ℚ) * (2 ^ (ex - (MAG_BITS:ℤ)) * 2 ^ (ey - (MAG_BITS:ℤ))) := by
              ring
          _ = (mx:ℚ) * (my:ℚ) * 2 ^ (ex + ey - 2 * (MAG_BITS:ℤ)) := by
              rw [← zpow_add₀ two_q_ne_zero]
              congr 1
              ring
      rw [h2] at h1
      exact h1

/-- Witness for C6 at the spec scenario: the `mag` bound 2.0 (mantissa
`2^29`, exponent 2) times the `mag` bound 3.0 (mantissa `3·2^28`,
exponent 2) bounds `2 · 3 = 6`. -/
theorem mag_mul_bound_witness :
    (mag_mul (.fin (2^29) 2) (.fin (3*2^28) 2)).Bounds (2 * 3) :=
  mag_mul_bound (.fin (2^29) 2) (.fin (3*2^28) 2) 2 3
    (by show (2:ℚ) ≤ (Mag.fin (2^29) 2).val
        norm_num [Mag.val, MAG_BITS])
    (by show (3:ℚ) ≤ (Mag.fin (3*2^28) 2).val
        norm_num [Mag.val, MAG_BITS])
    (by norm_num) (by norm_num)

/-- Counterexample to C7 as stated: adding `2^{-30}` to the `mag` value 1
(a well-formed finite `mag`) with `mag_add_2exp` is not exact: the exact
sum `1 + 2^{-30}` needs 31 mantissa bits, and the upward rounding returns
the strictly larger `1 + 2^{-29}`. -/
theorem mag_add_2exp_not_exact :
    Mag.WF (.fin (2^29) 1) ∧
    (mag_add_2exp (.fin (2^29) 1) (-30)).val ≠
      Mag.val (.fin (2^29) 1) + 2 ^ (-30 : Int) := by
  constructor
  · constructor <;> norm_num [MAG_BITS]
  · have hsz : Nat.size (2^30 + 1) = 31 := by
      have h1 : Nat.size (2^30 + 1) ≤ 31 := Nat.size_le.mpr (by norm_num)
      have h2 : 30 < Nat.size (2^30 + 1) := Nat.lt_size.mpr (by norm_num)
      omega
    have h0 : mag_add_2exp (.fin (2^29) 1) (-30) = magOfNatUp (2^30 + 1) (-30) := by
      simp only [mag_add_2exp]
      norm_num [MAG_BITS]
    have h1 : magOfNatUp (2^30 + 1) (-30) = .fin (2^29 + 1) 1 := by
      simp only [magOfNatUp]
      rw [hsz]
      norm_num [MAG_BITS]
    rw [h0, h1]
    simp only [Mag.val, MAG_BITS]
    norm_num

/-- C7 amended: for every non-infinite `mag` value, multiplication by a
power of two (`mag_mul_2exp`) is exact — the result's value is exactly
`x · 2^e`, only the exponent shifts — while addition of a power of two
(`mag_add_2exp`) only guarantees an upper bound: its result is at least
`x + 2^e` (and, per the counterexample, can strictly exceed it). -/
theorem mag_2exp_ops (x : Mag) (e : Int) (hfin : x ≠ .inf) :
    (mag_mul_2exp x e).val = x.val * 2 ^ e ∧
      x.val + 2 ^ e ≤ (mag_add_2exp x e).val := by
  cases x with
  | inf => exact absurd rfl hfin
  | zero =>
    constructor
    · simp [mag_mul_2exp, Mag.val]
    · simp only [mag_add_2exp, Mag.val, zero_add]
      have h : ((2 ^ (MAG_BITS - 1) : ℕ) : ℚ) * 2 ^ (e + 1 - (MAG_BITS:ℤ)) = 2 ^ e := by
        rw [natCast_pow2_eq_zpow, ← zpow_add₀ two_q_ne_zero]
        congr 1
        simp only [MAG_BITS]
        omega
      rw [h]
  | fin man exp =>
    constructor
    · simp only [mag_mul_2exp, Mag.val]
      rw [mul_assoc, ← zpow_add₀ two_q_ne_zero]
      congr 2
      ring
    · simp only [mag_add_2exp]
      have ht : min (exp - (MAG_BITS:ℤ)) e ≤ exp - MAG_BITS := min_le_left _ _
      have ht2 : min (exp - (MAG_BITS:ℤ)) e ≤ e := min_le_right _ _
      set t := min (exp - (MAG_BITS:ℤ)) e with htdef
      have key : Mag.val (.fin man exp) + (2:ℚ) ^ e =
          ((man * 2 ^ (exp - (MAG_BITS:ℤ) - t).toNat + 2 ^ (e - t).toNat : ℕ) : ℚ) *
            2 ^ t := by
        push_cast
        rw [add_mul, mul_assoc, ← zpow_natCast (2:ℚ) (exp - (MAG_BITS:ℤ) - t).toNat,
          ← zpow_natCast (2:ℚ) (e - t).toNat, ← zpow_add₀ two_q_ne_zero,
          ← zpow_add₀ two_q_ne_zero]
        rw [Int.toNat_of_nonneg (by omega), Int.toNat_of_nonneg (by omega)]
        simp only [Mag.val]
        rw [sub_add_cancel, sub_add_cancel]
      rw [key]
      exact magOfNatUp_val_ge _ _

/-- Witness for the amended C7 at `x = 2^{10}` (mantissa `2^29`,
exponent 40) and `e = 5`. -/
theorem mag_2exp_ops_witness :
    (mag_mul_2exp (.fin (2^29) 40) 5).val = (Mag.fin (2^29) 40).val * 2 ^ (5:Int) ∧
      (Mag.fin (2^29) 40).val + 2 ^ (5:Int) ≤ (mag_add_2exp (.fin (2^29) 40) 5).val :=
  mag_2exp_ops (.fin (2^29) 40) 5 (by decide)

/-- C8: there is no NaN in the `mag` type (its values are zero, finite, or
positive infinity), and `mag_is_finite` is exactly the pointwise negation
of `mag_is_inf`. -/
theorem mag_is_finite_eq_not_is_inf : ∀ x : Mag, mag_is_finite x = ! mag_is_inf x := by
  intro x
  cases x <;> rfl

/-! ## `fmpcb_mat_sub` (from `fmpcb_mat/sub.c`)

The entry type `fmpcb_t` and the scalar subtraction `fmpcb_sub` are outside
the given source tree; the entry type is abstracted as a type parameter and
the scalar subtraction as a function parameter, since the claim concerns
only which entries are written. -/

/-- An `fmpcb_mat_t`: a row count, a column count, and an entry table.
The entry table is total, so entries outside the bounds can be observed
to be left unchanged. -/
structure FmpcbMat (α : Type) where
  nrows : Nat
  ncols : Nat
  entry : Nat → Nat → α

/-- Write a single entry of an entry table. -/
def setEntry {α : Type} (g : Nat → Nat → α) (i j : Nat) (v : α) : Nat → Nat → α :=
  fun i2 j2 => if i2 = i ∧ j2 = j then v else g i2 j2

/-- `fmpcb_mat_sub` from `fmpcb_mat/sub.c`: the nested loops run `i` over
`fmpcb_mat_nrows(mat1)` and `j` over `fmpcb_mat_ncols(mat1)` and store
`fmpcb_sub(mat1[i,j], mat2[i,j], prec)` into `res[i,j]`. -/
def fmpcb_mat_sub {α : Type} (sub : α → α → Int → α)
    (res mat1 mat2 : FmpcbMat α) (prec : Int) : FmpcbMat α :=
  { res with
    entry :=
      (List.range mat1.nrows).foldl
        (fun g i =>
          (List.range mat1.ncols).foldl
            (fun g2 j => setEntry g2 i j (sub (mat1.entry i j) (mat2.entry i j) prec))
            g)
        res.entry }

theorem fmpcb_mat_sub_row_fold {α : Type} (sub : α → α → Int → α)
    (mat1 mat2 : FmpcbMat α) (prec : Int) (i : Nat) (g : Nat → Nat → α) (n : Nat) :
    ∀ i2 j2, ((List.range n).foldl
        (fun g2 j => setEntry g2 i j (sub (mat1.entry i j) (mat2.entry i j) prec)) g) i2 j2 =
      if i2 = i ∧ j2 < n then sub (mat1.entry i j2) (mat2.entry i j2) prec
      else g i2 j2 := by
  induction n generalizing g with
  | zero => intro i2 j2; simp
  | succ n ih =>
    intro i2 j2
    rw [List.range_succ, List.foldl_append]
    simp only [List.foldl_cons, List.foldl_nil]
    simp only [setEntry]
    rw [ih]
    by_cases hi : i2 = i
    · subst hi
      by_cases hj : j2 = n
      · subst hj
        simp
      · simp [hj, (show (j2 < n + 1) ↔ (j2 < n) by omega)]
    · simp [hi]

theorem fmpcb_mat_sub_outer_fold {α : Type} (sub : α → α → Int → α)
    (mat1 mat2 : FmpcbMat α) (prec : Int) (g : Nat → Nat → α) (m : Nat) :
    ∀ i2 j2, ((List.range m).foldl
        (fun g i =>
          (List.range mat1.ncols).foldl
            (fun g2 j => setEntry g2 i j (sub (mat1.entry i j) (mat2.entry i j) prec)) g)
        g) i2 j2 =
      if i2 < m ∧ j2 < mat1.ncols then sub (mat1.entry i2 j2) (mat2.entry i2 j2) prec
      else g i2 j2 := by
  induction m generalizing g with
  | zero => intro i2 j2; simp
  | succ m ih =>
    intro i2 j2
    rw [List.range_succ, List.foldl_append]
    simp only [List.foldl_cons, List.foldl_nil]
    rw [fmpcb_mat_sub_row_fold, ih]
    by_cases hi : i2 = m
    · by_cases hj : j2 < mat1.ncols
      · simp [hi, hj, (show ¬ (m < m) by omega), (show m < m + 1 by omega)]
      · simp [hj]
    · by_cases him : i2 < m
      · simp [hi, him, (show i2 < m + 1 by omega)]
      · simp [hi, him, (show ¬ (i2 < m + 1) by omega)]

/-- C10: `fmpcb_mat_sub` iterates over the row and column counts of its
first matrix operand `mat1` only: it stores the entry-wise difference at
exactly the indices `(i, j)` with `i < nrows(mat1)` and `j < ncols(mat1)`,
leaves every other entry of `res` unchanged, and does not touch the
dimensions of `res`. -/
theorem fmpcb_mat_sub_frame {α : Type} (sub : α → α → Int → α)
    (res mat1 mat2 : FmpcbMat α) (prec : Int) (i j : Nat) :
    (i < mat1.nrows ∧ j < mat1.ncols →
      (fmpcb_mat_sub sub res mat1 mat2 prec).entry i j =
        sub (mat1.entry i j) (mat2.entry i j) prec) ∧
    (¬ (i < mat1.nrows ∧ j < mat1.ncols) →
      (fmpcb_mat_sub sub res mat1 mat2 prec).entry i j = res.entry i j) ∧
    (fmpcb_mat_sub sub res mat1 mat2 prec).nrows = res.nrows ∧
    (fmpcb_mat_sub sub res mat1 mat2 prec).ncols = res.ncols := by
  refine ⟨?_, ?_, rfl, rfl⟩
  · intro h
    show ((List.range mat1.nrows).foldl _ res.entry) i j = _
    rw [fmpcb_mat_sub_outer_fold, if_pos h]
  · intro h
    show ((List.range mat1.nrows).foldl _ res.entry) i j = _
    rw [fmpcb_mat_sub_outer_fold, if_neg h]

/-- Witness for C10 on concrete 2×2 integer matrices: the in-range entry
`(0,1)` receives the difference, the out-of-range entry `(3,5)` keeps the
destination's old value. -/
theorem fmpcb_mat_sub_frame_witness :
    ((fmpcb_mat_sub (fun (a b : Int) (_ : Int) => a - b)
        ⟨2, 2, fun i j => (100 * i + j : Int)⟩
        ⟨2, 2, fun i j => (10 * i + j : Int)⟩
        ⟨2, 2, fun i j => (i + 2 * j : Int)⟩ 7).entry 0 1 = (10 * 0 + 1) - (0 + 2 * 1)) ∧
    ((fmpcb_mat_sub (fun (a b : Int) (_ : Int) => a - b)
        ⟨2, 2, fun i j => (100 * i + j : Int)⟩
        ⟨2, 2, fun i j => (10 * i + j : Int)⟩
        ⟨2, 2, fun i j => (i + 2 * j : Int)⟩ 7).entry 3 5 = 100 * 3 + 5) := by
  constructor
  · exact (fmpcb_mat_sub_frame (fun (a b : Int) (_ : Int) => a - b)
      ⟨2, 2, fun i j => (100 * i + j : Int)⟩
      ⟨2, 2, fun i j => (10 * i + j : Int)⟩
      ⟨2, 2, fun i j => (i + 2 * j : Int)⟩ 7 0 1).1 (by decide)
  · exact (fmpcb_mat_sub_frame (fun (a b : Int) (_ : Int) => a - b)
      ⟨2, 2, fun i j => (100 * i + j : Int)⟩
      ⟨2, 2, fun i j => (10 * i + j : Int)⟩
      ⟨2, 2, fun i j => (i + 2 * j : Int)⟩ 7 3 5).2.1 (by decide)

/-! ## The `fmpr` type and its square root

Only the test harness of `fmpr_sqrt` (`t-sqrt.c`) is in the given source
tree; `fmpr_sqrt` and `fmpr_check_ulp` themselves are not, so they are
modelled from the specification below. -/

/-- Rounding modes of the `fmpr` layer (`FMPR_RND_DOWN` = toward zero,
`FMPR_RND_UP` = away from zero, `FMPR_RND_FLOOR` = toward −∞,
`FMPR_RND_CEIL` = toward +∞). -/
inductive FmprRnd where
  | down : FmprRnd
  | up : FmprRnd
  | floor : FmprRnd
  | ceil : FmprRnd
deriving DecidableEq

/-- An `fmpr_t`: NaN, ±∞, zero, or a finite value `man · 2 ^ exp`; the
canonical normalization keeps `man` odd and nonzero. -/
inductive Fmpr where
  | nan : Fmpr
  | pos_inf : Fmpr
  | neg_inf : Fmpr
  | zero : Fmpr
  | fin (man : Int) (exp : Int) : Fmpr
deriving DecidableEq

/-- Exact rational value of an `fmpr` (special values map to 0). -/
def Fmpr.val : Fmpr → ℚ
  | .fin man exp => (man : ℚ) * 2 ^ exp
  | _ => 0

/-- Real-number view of the value. -/
def Fmpr.valR (x : Fmpr) : ℝ := ((x.val : ℚ) : ℝ)

/-- Floor of the square root of `m · 2 ^ s`, computed with the integer
square root after shifting by an even power of two. -/
def isqrtShift (m : Nat) (s : Int) : Nat :=
  if 0 ≤ s then Nat.sqrt (m * 2 ^ s.toNat)
  else
    let k := (((-s) + 1) / 2).toNat
    Nat.sqrt (m * 2 ^ (2 * k - (-s).toNat)) / 2 ^ k

/-- Position of the leading bit of `√(m · 2^exp)`: for a value in
`[2^(L−1), 2^L)` the square root lies in `[2^(h−1), 2^h)` with
`h = ⌈L/2⌉`. -/
def sqrtL (m : Nat) (exp : Int) : Int := (Nat.size m : Int) + exp

def sqrtH (m : Nat) (exp : Int) : Int := (sqrtL m exp + 1) / 2

/-- Scaling exponent: `m · 2 ^ sqrtS` is the radicand scaled so that its
integer square root is the `p`-bit result mantissa. -/
def sqrtS (m : Nat) (exp : Int) (p : Nat) : Int :=
  exp + 2 * (p : Int) - 2 * sqrtH m exp

/-- Rounded-toward-zero `p`-bit mantissa of `√(m · 2^exp)`. -/
def sqrtN (m : Nat) (exp : Int) (p : Nat) : Nat := isqrtShift m (sqrtS m exp p)

/-- Whether the square root is exactly representable at `p` bits (so that
no rounding happens). -/
def sqrtExact (m : Nat) (exp : Int) (p : Nat) : Bool :=
  decide (0 ≤ sqrtS m exp p) &&
    decide ((sqrtN m exp p) ^ 2 = m * 2 ^ (sqrtS m exp p).toNat)

/-- Modelled from the spec: `fmpr_sqrt(z, x, prec, rnd)` conceptually
computes the square root of `x` to infinite precision and rounds that
reference value once to `prec` bits in the given mode, returning the
rounded value together with the signed rounding indicator (0 if the result
is exact, negative if rounded down in magnitude, positive if rounded up in
magnitude).  Special values: `sqrt(NaN) = sqrt(−∞) = NaN` (negative or NaN
input gives NaN, the real domain only), `sqrt(+∞) = +∞`, `sqrt(0) = 0`.
Since the root of a positive number is positive, `FMPR_RND_FLOOR` acts as
truncation (like `FMPR_RND_DOWN`) and `FMPR_RND_CEIL` rounds away from
zero (like `FMPR_RND_UP`).  The model does not strip trailing zero bits of
the result mantissa; the represented value is unaffected. -/
def fmpr_sqrt (x : Fmpr) (p : Nat) (mode : FmprRnd) : Fmpr × Int :=
  match x with
  | .nan => (.nan, 0)
  | .pos_inf => (.pos_inf, 0)
  | .neg_inf => (.nan, 0)
  | .zero => (.zero, 0)
  | .fin man exp =>
    if man < 0 then (.nan, 0)
    else
      let m := man.toNat
      let n := sqrtN m exp p
      let e : Int := sqrtH m exp - p
      match mode with
      | .down | .floor => (.fin (n : Int) e, if sqrtExact m exp p then 0 else -1)
      | .up | .ceil =>
          if sqrtExact m exp p then (.fin (n : Int) e, 0)
          else (.fin ((n : Int) + 1) e, 1)

/-- `y` is representable with a `p`-bit mantissa and arbitrary exponent:
`y = k · 2^e` with `0 < k < 2^p`. -/
def FmprRep (p : Nat) (y : ℝ) : Prop :=
  ∃ k : Nat, ∃ e : Int, 0 < k ∧ k < 2 ^ p ∧ y = (k : ℝ) * (2:ℝ) ^ e

/-- `y` is the reference value `v` rounded down to `p` bits: the greatest
`p`-bit representable number `≤ v` (for positive `v` this is both
`MPFR_RNDZ` and `MPFR_RNDD`). -/
def IsRndDown (p : Nat) (v y : ℝ) : Prop :=
  FmprRep p y ∧ y ≤ v ∧ ∀ u, FmprRep p u → u ≤ v → u ≤ y

/-- `y` is the reference value `v` rounded up to `p` bits: the least
`p`-bit representable number `≥ v` (for positive `v` this is both
`MPFR_RNDA` and `MPFR_RNDU`). -/
def IsRndUp (p : Nat) (v y : ℝ) : Prop :=
  FmprRep p y ∧ v ≤ y ∧ ∀ u, FmprRep p u → v ≤ u → y ≤ u

/-- Modelled from the spec: one unit in the last place of a finite nonzero
value at precision `p`: if `|z| ∈ [2^(L−1), 2^L)` then `ulp = 2^(L−p)`. -/
def fmprUlp (z : Fmpr) (p : Nat) : ℚ :=
  match z with
  | .fin man exp => (2:ℚ) ^ ((Nat.size man.natAbs : Int) + exp - p)
  | _ => 0

/-- Modelled from the spec: the test oracle `fmpr_check_ulp(z, ret, prec)`
verifies that the signed rounding indicator is consistent with the distance
in ULPs (at the output precision) between the rounded result and the true
value `v`: a zero indicator holds exactly when the result is exact; a
positive indicator means the result was rounded up in magnitude, with the
true value strictly below it in magnitude and within one ULP; a negative
indicator means it was rounded down in magnitude, with the true value
strictly above it in magnitude and within one ULP. -/
def fmpr_check_ulp (z : Fmpr) (ind : Int) (p : Nat) (v : ℝ) : Prop :=
  (ind = 0 ↔ z.valR = v) ∧
  (0 < ind → |v| < |z.valR| ∧ |z.valR| - |v| < ((fmprUlp z p : ℚ) : ℝ)) ∧
  (ind < 0 → |z.valR| < |v| ∧ |v| - |z.valR| < ((fmprUlp z p : ℚ) : ℝ))

theorem zpow_mul_le_iff_q (a b : ℚ) (u : Int) : a * 2 ^ u ≤ b * 2 ^ u ↔ a ≤ b :=
  mul_le_mul_right (two_zpow_pos u)

theorem zpow_mul_lt_iff_q (a b : ℚ) (u : Int) : a * 2 ^ u < b * 2 ^ u ↔ a < b :=
  mul_lt_mul_right (two_zpow_pos u)

theorem q_cast_shift (m : Nat) (s : Int) (hs : 0 ≤ s) :
    (m:ℚ) * 2 ^ s = ((m * 2 ^ s.toNat : ℕ) : ℚ) := by
  push_cast
  rw [← zpow_natCast (2:ℚ) s.toNat, Int.toNat_of_nonneg hs]

/-- The scaled integer square root satisfies the floor characterization
`n² ≤ m·2^s < (n+1)²` over the rationals. -/
theorem isqrtShift_bounds (m : Nat) (s : Int) :
    ((isqrtShift m s : ℚ)) ^ 2 ≤ (m:ℚ) * 2 ^ s ∧
      (m:ℚ) * 2 ^ s < ((isqrtShift m s : ℚ) + 1) ^ 2 := by
  by_cases hs : 0 ≤ s
  · have hdef : isqrtShift m s = Nat.sqrt (m * 2 ^ s.toNat) := by
      unfold isqrtShift
      rw [if_pos hs]
    rw [hdef, q_cast_shift m s hs]
    constructor
    · exact_mod_cast Nat.sqrt_le' (m * 2 ^ s.toNat)
    · have h2 := Nat.lt_succ_sqrt' (m * 2 ^ s.toNat)
      exact_mod_cast h2
  · push_neg at hs
    set k := (((-s) + 1) / 2).toNat with hk
    set j := 2 * k - (-s).toNat with hjj
    have hjs : ((j : ℕ) : ℤ) = 2 * k + s := by omega
    set a := m * 2 ^ j with ha
    set q := Nat.sqrt a with hq
    have hdef : isqrtShift m s = q / 2 ^ k := by
      unfold isqrtShift
      rw [if_neg (by omega)]
    have hkpos : 0 < (2:ℕ) ^ k := Nat.pos_pow_of_pos _ (by norm_num)
    have hlow : (q / 2 ^ k) ^ 2 * (2 ^ k) ^ 2 ≤ a := by
      have h1 : q / 2 ^ k * 2 ^ k ≤ q := Nat.div_mul_le_self q (2 ^ k)
      calc (q / 2 ^ k) ^ 2 * (2 ^ k) ^ 2 = (q / 2 ^ k * 2 ^ k) ^ 2 := by ring
        _ ≤ q ^ 2 := Nat.pow_le_pow_left h1 2
        _ ≤ a := Nat.sqrt_le' a
    have hhigh : a < ((q / 2 ^ k + 1) * 2 ^ k) ^ 2 := by
      have h1 : q < (q / 2 ^ k + 1) * 2 ^ k := by
        rw [← Nat.div_lt_iff_lt_mul hkpos]
        omega
      have h2 : a < (q + 1) ^ 2 := Nat.lt_succ_sqrt' a
      calc a < (q + 1) ^ 2 := h2
        _ ≤ ((q / 2 ^ k + 1) * 2 ^ k) ^ 2 := Nat.pow_le_pow_left h1 2
    rw [hdef]
    constructor
    · rw [← zpow_mul_le_iff_q _ _ ((2 * k : ℕ) : ℤ)]
      have e1 : ((q / 2 ^ k : ℕ) : ℚ) ^ 2 * (2:ℚ) ^ ((2 * k : ℕ) : ℤ) =
          (((q / 2 ^ k) ^ 2 * (2 ^ k) ^ 2 : ℕ) : ℚ) := by
        rw [zpow_natCast]
        push_cast
        ring
      have e2 : (m:ℚ) * 2 ^ s * (2:ℚ) ^ ((2 * k : ℕ) : ℤ) = ((a : ℕ) : ℚ) := by
        rw [mul_assoc, ← zpow_add₀ two_q_ne_zero]
        have he : s + ((2 * k : ℕ) : ℤ) = ((j : ℕ) : ℤ) := by omega
        rw [he, ha, zpow_natCast]
        push_cast
        ring
      rw [e1, e2]
      exact_mod_cast hlow
    · rw [← zpow_mul_lt_iff_q _ _ ((2 * k : ℕ) : ℤ)]
      have e1 : (((q / 2 ^ k : ℕ) : ℚ) + 1) ^ 2 * (2:ℚ) ^ ((2 * k : ℕ) : ℤ) =
          ((((q / 2 ^ k + 1) * 2 ^ k) ^ 2 : ℕ) : ℚ) := by
        rw [zpow_natCast]
        push_cast
        ring
      have e2 : (m:ℚ) * 2 ^ s * (2:ℚ) ^ ((2 * k : ℕ) : ℤ) = ((a : ℕ) : ℚ) := by
        rw [mul_assoc, ← zpow_add₀ two_q_ne_zero]
        have he : s + ((2 * k : ℕ) : ℤ) = ((j : ℕ) : ℤ) := by omega
        rw [he, ha, zpow_natCast]
        push_cast
        ring
      rw [e1, e2]
      exact_mod_cast hhigh

theorem zpow_sq (u : Int) : ((2:ℚ) ^ u) ^ 2 = (2:ℚ) ^ (2 * u) := by
  rw [two_mul, zpow_add₀ two_q_ne_zero, sq]

/-- Core characterization of the square-root mantissa computation: for a
positive odd mantissa and positive precision, the computed `p`-bit mantissa
`n` is normalized (`2^(p−1) ≤ n < 2^p`), the grid value `n · 2^(h−p)`
brackets the radicand (`(n·2^(h−p))² ≤ m·2^exp < ((n+1)·2^(h−p))²`), and
the exactness flag holds precisely when `(n·2^(h−p))² = m·2^exp`. -/
theorem sqrt_core (m : Nat) (exp : Int) (p : Nat) (hm : 1 ≤ m) (hodd : Odd m)
    (hp : 1 ≤ p) :
    (2 ^ (p - 1) ≤ sqrtN m exp p ∧ sqrtN m exp p < 2 ^ p) ∧
    (((sqrtN m exp p : ℚ) * 2 ^ (sqrtH m exp - (p:ℤ))) ^ 2 ≤ (m:ℚ) * 2 ^ exp ∧
      (m:ℚ) * 2 ^ exp < (((sqrtN m exp p : ℚ) + 1) * 2 ^ (sqrtH m exp - (p:ℤ))) ^ 2) ∧
    (sqrtExact m exp p = true ↔
      ((sqrtN m exp p : ℚ) * 2 ^ (sqrtH m exp - (p:ℤ))) ^ 2 = (m:ℚ) * 2 ^ exp) := by
  have hsz1 : 1 ≤ Nat.size m := by
    have := Nat.size_pos.mpr (by omega : 0 < m)
    omega
  have hm_lo : 2 ^ (Nat.size m - 1) ≤ m :=
    Nat.lt_size.mp (by omega : Nat.size m - 1 < Nat.size m)
  have hm_hi : m < 2 ^ Nat.size m := Nat.lt_size_self m
  have hh1 : 2 * sqrtH m exp - 1 ≤ sqrtL m exp := by
    unfold sqrtH
    omega
  have hh2 : sqrtL m exp ≤ 2 * sqrtH m exp := by
    unfold sqrtH
    omega
  have hL_def : sqrtL m exp = (Nat.size m : ℤ) + exp := rfl
  have hs_def : sqrtS m exp p = exp + 2 * (p:ℤ) - 2 * sqrtH m exp := rfl
  have hX_lo : (2:ℚ) ^ (sqrtL m exp - 1) ≤ (m:ℚ) * 2 ^ exp := by
    have h1 : ((2 ^ (Nat.size m - 1) : ℕ) : ℚ) ≤ (m:ℚ) := by exact_mod_cast hm_lo
    calc (2:ℚ) ^ (sqrtL m exp - 1)
        = ((2 ^ (Nat.size m - 1) : ℕ) : ℚ) * 2 ^ exp := by
          rw [natCast_pow2_eq_zpow, ← zpow_add₀ two_q_ne_zero]
          congr 1
          rw [hL_def]
          omega
      _ ≤ (m:ℚ) * 2 ^ exp := mul_le_mul_of_nonneg_right h1 (two_zpow_pos exp).le
  have hX_hi : (m:ℚ) * 2 ^ exp < (2:ℚ) ^ sqrtL m exp := by
    have h1 : (m:ℚ) < ((2 ^ Nat.size m : ℕ) : ℚ) := by exact_mod_cast hm_hi
    calc (m:ℚ) * 2 ^ exp
        < ((2 ^ Nat.size m : ℕ) : ℚ) * 2 ^ exp :=
          mul_lt_mul_of_pos_right h1 (two_zpow_pos exp)
      _ = (2:ℚ) ^ sqrtL m exp := by
          rw [natCast_pow2_eq_zpow, ← zpow_add₀ two_q_ne_zero]
          congr 1
  have hXs : (m:ℚ) * 2 ^ sqrtS m exp p =
      (m:ℚ) * 2 ^ exp * 2 ^ (2 * (p:ℤ) - 2 * sqrtH m exp) := by
    rw [mul_assoc, ← zpow_add₀ two_q_ne_zero, hs_def]
    congr 2
    ring
  have hs_lo : (2:ℚ) ^ (2 * (p:ℤ) - 2) ≤ (m:ℚ) * 2 ^ sqrtS m exp p := by
    rw [hXs]
    calc (2:ℚ) ^ (2 * (p:ℤ) - 2)
        ≤ (2:ℚ) ^ (sqrtL m exp - 1 + (2 * (p:ℤ) - 2 * sqrtH m exp)) :=
          zpow_le_zpow_right₀ (by norm_num) (by omega)
      _ = (2:ℚ) ^ (sqrtL m exp - 1) * 2 ^ (2 * (p:ℤ) - 2 * sqrtH m exp) :=
          zpow_add₀ two_q_ne_zero _ _
      _ ≤ (m:ℚ) * 2 ^ exp * 2 ^ (2 * (p:ℤ) - 2 * sqrtH m exp) :=
          mul_le_mul_of_nonneg_right hX_lo (two_zpow_pos _).le
  have hs_hi : (m:ℚ) * 2 ^ sqrtS m exp p < (2:ℚ) ^ (2 * (p:ℤ)) := by
    rw [hXs]
    calc (m:ℚ) * 2 ^ exp * 2 ^ (2 * (p:ℤ) - 2 * sqrtH m exp)
        < (2:ℚ) ^ sqrtL m exp * 2 ^ (2 * (p:ℤ) - 2 * sqrtH m exp) :=
          mul_lt_mul_of_pos_right hX_hi (two_zpow_pos _)
      _ = (2:ℚ) ^ (sqrtL m exp + (2 * (p:ℤ) - 2 * sqrtH m exp)) :=
          (zpow_add₀ two_q_ne_zero _ _).symm
      _ ≤ (2:ℚ) ^ (2 * (p:ℤ)) := zpow_le_zpow_right₀ (by norm_num) (by omega)
  have hbounds := isqrtShift_bounds m (sqrtS m exp p)
  have hNdef : sqrtN m exp p = isqrtShift m (sqrtS m exp p) := rfl
  rw [← hNdef] at hbounds
  have hn_hi : sqrtN m exp p < 2 ^ p := by
    by_contra hc
    push_neg at hc
    have h1 : ((2 ^ p : ℕ) : ℚ) ≤ ((sqrtN m exp p : ℕ) : ℚ) := by exact_mod_cast hc
    have h2 : ((2 ^ p : ℕ) : ℚ) ^ 2 ≤ ((sqrtN m exp p : ℕ) : ℚ) ^ 2 :=
      pow_le_pow_left (by positivity) h1 2
    have h3 : ((2 ^ p : ℕ) : ℚ) ^ 2 = (2:ℚ) ^ (2 * (p:ℤ)) := by
      rw [natCast_pow2_eq_zpow, zpow_sq]
    rw [h3] at h2
    have h4 := h2.trans hbounds.1
    linarith
  have hn_lo : 2 ^ (p - 1) ≤ sqrtN m exp p := by
    by_contra hc
    push_neg at hc
    have h1 : ((sqrtN m exp p : ℕ) : ℚ) + 1 ≤ ((2 ^ (p-1) : ℕ) : ℚ) := by
      exact_mod_cast hc
    have h2 : (((sqrtN m exp p : ℕ) : ℚ) + 1) ^ 2 ≤ ((2 ^ (p-1) : ℕ) : ℚ) ^ 2 :=
      pow_le_pow_left (by positivity) h1 2
    have h3 : ((2 ^ (p-1) : ℕ) : ℚ) ^ 2 = (2:ℚ) ^ (2 * (p:ℤ) - 2) := by
      rw [natCast_pow2_eq_zpow, zpow_sq]
      congr 1
      omega
    rw [h3] at h2
    have h4 := lt_of_le_of_lt hs_lo hbounds.2
    linarith
  have hsexp : sqrtS m exp p + (2 * sqrtH m exp - 2 * (p:ℤ)) = exp := by
    rw [hs_def]
    ring
  have hgrid_sq : ∀ c : ℚ, (c * 2 ^ (sqrtH m exp - (p:ℤ))) ^ 2 =
      c ^ 2 * 2 ^ (2 * sqrtH m exp - 2 * (p:ℤ)) := by
    intro c
    rw [mul_pow, zpow_sq]
    congr 2
    ring
  have hscale : ∀ c : ℚ, c ^ 2 * 2 ^ (2 * sqrtH m exp - 2 * (p:ℤ)) =
      c ^ 2 * 2 ^ (2 * sqrtH m exp - 2 * (p:ℤ)) := fun _ => rfl
  have hXX : (m:ℚ) * 2 ^ exp =
      ((m:ℚ) * 2 ^ sqrtS m exp p) * 2 ^ (2 * sqrtH m exp - 2 * (p:ℤ)) := by
    rw [mul_assoc, ← zpow_add₀ two_q_ne_zero, hsexp]
  refine ⟨⟨hn_lo, hn_hi⟩, ⟨?_, ?_⟩, ?_⟩
  · rw [hgrid_sq, hXX]
    exact mul_le_mul_of_nonneg_right hbounds.1 (two_zpow_pos _).le
  · rw [hgrid_sq, hXX]
    exact mul_lt_mul_of_pos_right hbounds.2 (two_zpow_pos _)
  · unfold sqrtExact
    rw [Bool.and_eq_true, decide_eq_true_eq, decide_eq_true_eq]
    constructor
    · rintro ⟨hs0, heq⟩
      rw [hgrid_sq, hXX]
      congr 1
      rw [q_cast_shift m _ hs0]
      exact_mod_cast heq
    · intro heq
      rw [hgrid_sq, hXX] at heq
      have hcancel : ((sqrtN m exp p : ℕ) : ℚ) ^ 2 = (m:ℚ) * 2 ^ sqrtS m exp p :=
        mul_right_cancel₀ (ne_of_gt (two_zpow_pos _)) heq
      by_cases hs0 : 0 ≤ sqrtS m exp p
      · refine ⟨hs0, ?_⟩
        rw [q_cast_shift m _ hs0] at hcancel
        exact_mod_cast hcancel
      · exfalso
        push_neg at hs0
        have hns : 0 ≤ -sqrtS m exp p := by omega
        have hc1 : ((sqrtN m exp p : ℕ) : ℚ) ^ 2 * 2 ^ (-sqrtS m exp p) = (m:ℚ) := by
          rw [hcancel, mul_assoc, ← zpow_add₀ two_q_ne_zero]
          simp
        have hc2 : ((sqrtN m exp p ^ 2 * 2 ^ (-sqrtS m exp p).toNat : ℕ) : ℚ) = (m:ℚ) := by
          rw [← hc1]
          push_cast
          rw [← zpow_natCast (2:ℚ) (-sqrtS m exp p).toNat, Int.toNat_of_nonneg hns]
        have hc3 : sqrtN m exp p ^ 2 * 2 ^ (-sqrtS m exp p).toNat = m := by
          exact_mod_cast hc2
        have hct : 1 ≤ (-sqrtS m exp p).toNat := by omega
        have hdvd : 2 ∣ m := by
          rw [← hc3]
          exact Dvd.dvd.mul_left (dvd_pow_self 2 (by omega)) _
        obtain ⟨t, ht⟩ := hodd
        obtain ⟨d, hd⟩ := hdvd
        omega

theorem two_r_ne_zero : (2:ℝ) ≠ 0 := by norm_num

theorem two_zpow_pos_r (u : Int) : (0:ℝ) < 2 ^ u := by positivity

theorem natCast_pow2_eq_zpow_r (k : Nat) : ((2 ^ k : Nat) : ℝ) = (2:ℝ) ^ (k : Int) := by
  push_cast
  norm_num

/-- Real-number form of `sqrt_core`: the grid value `n · 2^(h−p)` is the
floor of the true square root on the `2^(h−p)` grid, and the exactness
flag detects equality. -/
theorem sqrt_core_real (m : Nat) (exp : Int) (p : Nat) (hm : 1 ≤ m) (hodd : Odd m)
    (hp : 1 ≤ p) :
    (sqrtN m exp p : ℝ) * (2:ℝ) ^ (sqrtH m exp - (p:ℤ)) ≤
        Real.sqrt ((m:ℝ) * (2:ℝ) ^ exp) ∧
    Real.sqrt ((m:ℝ) * (2:ℝ) ^ exp) <
        ((sqrtN m exp p : ℝ) + 1) * (2:ℝ) ^ (sqrtH m exp - (p:ℤ)) ∧
    (sqrtExact m exp p = true ↔
        (sqrtN m exp p : ℝ) * (2:ℝ) ^ (sqrtH m exp - (p:ℤ)) =
          Real.sqrt ((m:ℝ) * (2:ℝ) ^ exp)) ∧
    (sqrtExact m exp p = false →
        (sqrtN m exp p : ℝ) * (2:ℝ) ^ (sqrtH m exp - (p:ℤ)) <
          Real.sqrt ((m:ℝ) * (2:ℝ) ^ exp)) := by
  obtain ⟨⟨hn1, hn2⟩, ⟨hb1, hb2⟩, hex⟩ := sqrt_core m exp p hm hodd hp
  have hXpos : (0:ℝ) < (m:ℝ) * 2 ^ exp := by
    have h1 : (0:ℝ) < (m:ℝ) := by exact_mod_cast (by omega : 0 < m)
    exact mul_pos h1 (two_zpow_pos_r exp)
  have hzd0 : (0:ℝ) ≤ (sqrtN m exp p : ℝ) * (2:ℝ) ^ (sqrtH m exp - (p:ℤ)) := by
    positivity
  have hb1R : ((sqrtN m exp p : ℝ) * (2:ℝ) ^ (sqrtH m exp - (p:ℤ))) ^ 2 ≤
      (m:ℝ) * 2 ^ exp := by
    rify at hb1
    exact hb1
  have hb2R : (m:ℝ) * 2 ^ exp <
      (((sqrtN m exp p : ℝ) + 1) * (2:ℝ) ^ (sqrtH m exp - (p:ℤ))) ^ 2 := by
    rify at hb2
    exact hb2
  refine ⟨(Real.le_sqrt hzd0 hXpos.le).mpr hb1R, (Real.sqrt_lt' (by positivity)).mpr hb2R,
    ⟨?_, ?_⟩, ?_⟩
  · intro hexact
    have heqR : ((sqrtN m exp p : ℝ) * (2:ℝ) ^ (sqrtH m exp - (p:ℤ))) ^ 2 =
        (m:ℝ) * 2 ^ exp := by
      have hq := hex.mp hexact
      rify at hq
      exact hq
    rw [← heqR, Real.sqrt_sq hzd0]
  · intro heqR
    apply hex.mpr
    have h2 : ((sqrtN m exp p : ℝ) * (2:ℝ) ^ (sqrtH m exp - (p:ℤ))) ^ 2 =
        (m:ℝ) * 2 ^ exp := by
      rw [heqR, Real.sq_sqrt hXpos.le]
    have h4 : ((((sqrtN m exp p : ℚ) * 2 ^ (sqrtH m exp - (p:ℤ))) ^ 2 : ℚ) : ℝ) =
        (((m:ℚ) * 2 ^ exp : ℚ) : ℝ) := by
      push_cast
      exact h2
    exact Rat.cast_injective h4
  · intro hfalse
    have hne : ¬ (((sqrtN m exp p : ℚ) * 2 ^ (sqrtH m exp - (p:ℤ))) ^ 2 =
        (m:ℚ) * 2 ^ exp) := by
      intro hc
      have := hex.mpr hc
      rw [hfalse] at this
      simp at this
    have hltQ : ((sqrtN m exp p : ℚ) * 2 ^ (sqrtH m exp - (p:ℤ))) ^ 2 <
        (m:ℚ) * 2 ^ exp := lt_of_le_of_ne hb1 hne
    have hltR : ((sqrtN m exp p : ℝ) * (2:ℝ) ^ (sqrtH m exp - (p:ℤ))) ^ 2 <
        (m:ℝ) * 2 ^ exp := by
      rify at hltQ
      exact hltQ
    exact (Real.lt_sqrt hzd0).mpr hltR

/-- Any `p`-bit representable number strictly below `(n+1) · 2^(h−p)`,
where `n` is a normalized `p`-bit mantissa, is at most `n · 2^(h−p)`:
there is no representable number strictly between consecutive grid
points. -/
theorem grid_le (p : Nat) (hp : 1 ≤ p) (n : Nat) (hn1 : 2 ^ (p-1) ≤ n)
    (hn2 : n < 2 ^ p) (h : Int) (u : ℝ) (hu : FmprRep p u)
    (hlt : u < ((n:ℝ) + 1) * (2:ℝ) ^ (h - (p:ℤ))) :
    u ≤ (n:ℝ) * (2:ℝ) ^ (h - (p:ℤ)) := by
  obtain ⟨k, e, hk0, hk, hue⟩ := hu
  by_cases hge : h - (p:ℤ) ≤ e
  · have he2 : (((e - (h - (p:ℤ))).toNat : ℕ) : ℤ) = e - (h - (p:ℤ)) :=
      Int.toNat_of_nonneg (by omega)
    have hu2 : u = ((k * 2 ^ (e - (h - (p:ℤ))).toNat : ℕ) : ℝ) *
        (2:ℝ) ^ (h - (p:ℤ)) := by
      rw [hue]
      push_cast
      rw [mul_assoc, ← zpow_natCast (2:ℝ) (e - (h - (p:ℤ))).toNat, he2,
        ← zpow_add₀ two_r_ne_zero]
      rw [sub_add_cancel]
    rw [hu2] at hlt ⊢
    have hKn : ((k * 2 ^ (e - (h - (p:ℤ))).toNat : ℕ) : ℝ) < (n:ℝ) + 1 :=
      lt_of_mul_lt_mul_right (by exact hlt) (two_zpow_pos_r _).le
    have hKn2 : k * 2 ^ (e - (h - (p:ℤ))).toNat ≤ n := by
      have h3 : k * 2 ^ (e - (h - (p:ℤ))).toNat < n + 1 := by exact_mod_cast hKn
      omega
    exact mul_le_mul_of_nonneg_right (by exact_mod_cast hKn2) (two_zpow_pos_r _).le
  · push_neg at hge
    have hu3 : u < (2:ℝ) ^ (h - (p:ℤ) - 1 + (p:ℤ)) := by
      rw [hue]
      calc (k:ℝ) * (2:ℝ) ^ e
          < ((2 ^ p : ℕ) : ℝ) * (2:ℝ) ^ e :=
            mul_lt_mul_of_pos_right (by exact_mod_cast hk) (two_zpow_pos_r e)
        _ = (2:ℝ) ^ ((p:ℤ) + e) := by
            rw [natCast_pow2_eq_zpow_r, ← zpow_add₀ two_r_ne_zero]
        _ ≤ (2:ℝ) ^ (h - (p:ℤ) - 1 + (p:ℤ)) :=
            zpow_le_zpow_right₀ (by norm_num) (by omega)
    have hzd_lo : (2:ℝ) ^ (h - (p:ℤ) - 1 + (p:ℤ)) ≤ (n:ℝ) * (2:ℝ) ^ (h - (p:ℤ)) := by
      have hcast : ((2 ^ (p-1) : ℕ) : ℝ) = (2:ℝ) ^ (((p:ℤ)) - 1) := by
        rw [natCast_pow2_eq_zpow_r]
        congr 1
        omega
      calc (2:ℝ) ^ (h - (p:ℤ) - 1 + (p:ℤ))
          = (2:ℝ) ^ ((p:ℤ) - 1) * (2:ℝ) ^ (h - (p:ℤ)) := by
            rw [← zpow_add₀ two_r_ne_zero]
            congr 1
            ring
        _ = ((2 ^ (p-1) : ℕ) : ℝ) * (2:ℝ) ^ (h - (p:ℤ)) := by rw [hcast]
        _ ≤ (n:ℝ) * (2:ℝ) ^ (h - (p:ℤ)) :=
            mul_le_mul_of_nonneg_right (by exact_mod_cast hn1) (two_zpow_pos_r _).le
    linarith

/-- The value one step up the rounding grid is also `p`-bit representable
(with a carry into the next binade when the mantissa overflows). -/
theorem rep_grid_succ (p : Nat) (hp : 1 ≤ p) (n : Nat) (hn1 : 2 ^ (p-1) ≤ n)
    (hn2 : n < 2 ^ p) (h : Int) :
    FmprRep p (((n:ℝ) + 1) * (2:ℝ) ^ (h - (p:ℤ))) := by
  by_cases hc : n + 1 < 2 ^ p
  · exact ⟨n + 1, h - (p:ℤ), by omega, hc, by push_cast; ring⟩
  · have hceq : n + 1 = 2 ^ p := by omega
    refine ⟨2 ^ (p-1), h - (p:ℤ) + 1, Nat.pos_pow_of_pos _ (by norm_num),
      Nat.pow_lt_pow_right (by norm_num) (by omega), ?_⟩
    have h1 : ((n:ℝ) + 1) = ((2 ^ p : ℕ) : ℝ) := by
      rw [← hceq]
      push_cast
      ring
    rw [h1, natCast_pow2_eq_zpow_r, natCast_pow2_eq_zpow_r,
      ← zpow_add₀ two_r_ne_zero, ← zpow_add₀ two_r_ne_zero]
    congr 1
    omega

/-- C1: for every finite nonzero odd-mantissa input and positive precision,
`fmpr_sqrt` returns exactly the value obtained by computing the square root
to reference (infinite) precision and rounding that reference value once to
`p` bits in the requested direction: for a negative input the result is NaN
(as for the MPFR oracle), and for a positive input the result under
`FMPR_RND_DOWN`/`FMPR_RND_FLOOR` (= `MPFR_RNDZ`/`MPFR_RNDD`) is the
greatest `p`-bit number `≤ √x`, and under `FMPR_RND_UP`/`FMPR_RND_CEIL`
(= `MPFR_RNDA`/`MPFR_RNDU`) the least `p`-bit number `≥ √x`. -/
theorem fmpr_sqrt_correct_rounding (man exp : Int) (p : Nat) (mode : FmprRnd)
    (hman : man ≠ 0) (hodd : Odd man) (hp : 1 ≤ p) :
    (man < 0 → fmpr_sqrt (.fin man exp) p mode = (.nan, 0)) ∧
    (0 < man →
      ((mode = .down ∨ mode = .floor) →
        IsRndDown p (Real.sqrt ((Fmpr.fin man exp).valR))
          ((fmpr_sqrt (.fin man exp) p mode).1.valR)) ∧
      ((mode = .up ∨ mode = .ceil) →
        IsRndUp p (Real.sqrt ((Fmpr.fin man exp).valR))
          ((fmpr_sqrt (.fin man exp) p mode).1.valR))) := by
  constructor
  · intro hneg
    cases mode <;> simp [fmpr_sqrt, hneg]
  · intro hpos
    have hm1 : 1 ≤ man.toNat := by omega
    have hmodd : Odd man.toNat := by
      obtain ⟨t, ht⟩ := hodd
      exact ⟨t.toNat, by omega⟩
    have hnotneg : ¬ man < 0 := by omega
    have hvalx : (Fmpr.fin man exp).valR = (man.toNat : ℝ) * (2:ℝ) ^ exp := by
      unfold Fmpr.valR Fmpr.val
      push_cast
      have h1 : ((man.toNat : ℕ) : ℝ) = ((man : ℤ) : ℝ) := by
        have h2 : ((man.toNat : ℕ) : ℤ) = man := Int.toNat_of_nonneg (by omega)
        exact_mod_cast congrArg (fun z : ℤ => (z : ℝ)) h2
      rw [h1]
    obtain ⟨hle, hlt, hexiff, hinexlt⟩ := sqrt_core_real man.toNat exp p hm1 hmodd hp
    obtain ⟨⟨hn1, hn2⟩, _, _⟩ := sqrt_core man.toNat exp p hm1 hmodd hp
    have hnpos : 0 < sqrtN man.toNat exp p := by
      have : 0 < 2 ^ (p-1) := Nat.pos_pow_of_pos _ (by norm_num)
      omega
    have hresdf : ∀ md, (md = FmprRnd.down ∨ md = FmprRnd.floor) →
        (fmpr_sqrt (.fin man exp) p md).1 =
          .fin ((sqrtN man.toNat exp p : ℕ) : ℤ) (sqrtH man.toNat exp - (p:ℤ)) := by
      rintro md (rfl | rfl) <;> simp [fmpr_sqrt, hnotneg]
    have hresu_ex : ∀ md, (md = FmprRnd.up ∨ md = FmprRnd.ceil) →
        sqrtExact man.toNat exp p = true →
        (fmpr_sqrt (.fin man exp) p md).1 =
          .fin ((sqrtN man.toNat exp p : ℕ) : ℤ) (sqrtH man.toNat exp - (p:ℤ)) := by
      rintro md (rfl | rfl) hx <;> simp [fmpr_sqrt, hnotneg, hx]
    have hresu_in : ∀ md, (md = FmprRnd.up ∨ md = FmprRnd.ceil) →
        sqrtExact man.toNat exp p = false →
        (fmpr_sqrt (.fin man exp) p md).1 =
          .fin (((sqrtN man.toNat exp p : ℕ) : ℤ) + 1) (sqrtH man.toNat exp - (p:ℤ)) := by
      rintro md (rfl | rfl) hx <;> simp [fmpr_sqrt, hnotneg, hx]
    have hzv : (Fmpr.fin ((sqrtN man.toNat exp p : ℕ) : ℤ)
        (sqrtH man.toNat exp - (p:ℤ))).valR =
        (sqrtN man.toNat exp p : ℝ) * (2:ℝ) ^ (sqrtH man.toNat exp - (p:ℤ)) := by
      unfold Fmpr.valR Fmpr.val
      push_cast
      ring
    have hzv2 : (Fmpr.fin (((sqrtN man.toNat exp p : ℕ) : ℤ) + 1)
        (sqrtH man.toNat exp - (p:ℤ))).valR =
        ((sqrtN man.toNat exp p : ℝ) + 1) * (2:ℝ) ^ (sqrtH man.toNat exp - (p:ℤ)) := by
      unfold Fmpr.valR Fmpr.val
      push_cast
      ring
    constructor
    · intro hmode
      rw [hresdf mode hmode, hzv, hvalx]
      refine ⟨⟨sqrtN man.toNat exp p, sqrtH man.toNat exp - (p:ℤ), hnpos, hn2, rfl⟩,
        hle, ?_⟩
      intro u hu hule
      exact grid_le p hp _ hn1 hn2 _ u hu (lt_of_le_of_lt hule hlt)
    · intro hmode
      cases hex : sqrtExact man.toNat exp p
      · rw [hresu_in mode hmode hex, hzv2, hvalx]
        refine ⟨rep_grid_succ p hp _ hn1 hn2 _, le_of_lt hlt, ?_⟩
        intro u hu huge
        by_contra hc
        push_neg at hc
        have h1 := grid_le p hp _ hn1 hn2 _ u hu hc
        have h2 := hinexlt hex
        linarith
      · rw [hresu_ex mode hmode hex, hzv, hvalx]
        have heq := hexiff.mp hex
        refine ⟨⟨sqrtN man.toNat exp p, sqrtH man.toNat exp - (p:ℤ), hnpos, hn2, rfl⟩,
          le_of_eq heq.symm, ?_⟩
        intro u hu huge
        rw [heq]
        exact huge

/-- Witness for C1 at `x = 3`, `p = 2`, truncating rounding. -/
theorem fmpr_sqrt_correct_rounding_witness :
    ((3:Int) < 0 → fmpr_sqrt (.fin 3 0) 2 FmprRnd.down = (.nan, 0)) ∧
    (0 < (3:Int) →
      ((FmprRnd.down = FmprRnd.down ∨ FmprRnd.down = FmprRnd.floor) →
        IsRndDown 2 (Real.sqrt ((Fmpr.fin 3 0).valR))
          ((fmpr_sqrt (.fin 3 0) 2 FmprRnd.down).1.valR)) ∧
      ((FmprRnd.down = FmprRnd.up ∨ FmprRnd.down = FmprRnd.ceil) →
        IsRndUp 2 (Real.sqrt ((Fmpr.fin 3 0).valR))
          ((fmpr_sqrt (.fin 3 0) 2 FmprRnd.down).1.valR))) :=
  fmpr_sqrt_correct_rounding 3 0 2 FmprRnd.down (by decide) (by decide) (by decide)

/-- C2: the signed rounding indicator returned by `fmpr_sqrt` is consistent
with the distance in ULPs at the output precision between the returned
result and the true square root, in the sense checked by
`fmpr_check_ulp(z, res, bits)`: the indicator is 0 exactly when the result
equals the true value; a negative indicator means the true value lies
strictly above the result in magnitude, within one ULP; a positive
indicator means it lies strictly below, within one ULP. -/
theorem fmpr_sqrt_ulp_consistency (man exp : Int) (p : Nat) (mode : FmprRnd)
    (hman : 0 < man) (hodd : Odd man) (hp : 1 ≤ p) :
    fmpr_check_ulp (fmpr_sqrt (.fin man exp) p mode).1
      (fmpr_sqrt (.fin man exp) p mode).2 p
      (Real.sqrt ((Fmpr.fin man exp).valR)) := by
  have hm1 : 1 ≤ man.toNat := by omega
  have hmodd : Odd man.toNat := by
    obtain ⟨t, ht⟩ := hodd
    exact ⟨t.toNat, by omega⟩
  have hnotneg : ¬ man < 0 := by omega
  have hvalx : (Fmpr.fin man exp).valR = (man.toNat : ℝ) * (2:ℝ) ^ exp := by
    unfold Fmpr.valR Fmpr.val
    push_cast
    have h1 : ((man.toNat : ℕ) : ℝ) = ((man : ℤ) : ℝ) := by
      have h2 : ((man.toNat : ℕ) : ℤ) = man := Int.toNat_of_nonneg (by omega)
      exact_mod_cast congrArg (fun z : ℤ => (z : ℝ)) h2
    rw [h1]
  obtain ⟨hle, hlt, hexiff, hinexlt⟩ := sqrt_core_real man.toNat exp p hm1 hmodd hp
  obtain ⟨⟨hn1, hn2⟩, _, _⟩ := sqrt_core man.toNat exp p hm1 hmodd hp
  have hnpos : 0 < sqrtN man.toNat exp p := by
    have : 0 < 2 ^ (p-1) := Nat.pos_pow_of_pos _ (by norm_num)
    omega
  have hXpos : (0:ℝ) < (man.toNat : ℝ) * (2:ℝ) ^ exp := by
    have h1 : (0:ℝ) < (man.toNat : ℝ) := by exact_mod_cast hm1
    exact mul_pos h1 (two_zpow_pos_r exp)
  have hsp : 0 < Real.sqrt ((man.toNat : ℝ) * (2:ℝ) ^ exp) := Real.sqrt_pos.mpr hXpos
  have hzdp : (0:ℝ) < (sqrtN man.toNat exp p : ℝ) *
      (2:ℝ) ^ (sqrtH man.toNat exp - (p:ℤ)) := by
    have h1 : (0:ℝ) < (sqrtN man.toNat exp p : ℝ) := by exact_mod_cast hnpos
    exact mul_pos h1 (two_zpow_pos_r _)
  have hzup : (0:ℝ) < ((sqrtN man.toNat exp p : ℝ) + 1) *
      (2:ℝ) ^ (sqrtH man.toNat exp - (p:ℤ)) := by
    positivity
  have hzv : (Fmpr.fin ((sqrtN man.toNat exp p : ℕ) : ℤ)
      (sqrtH man.toNat exp - (p:ℤ))).valR =
      (sqrtN man.toNat exp p : ℝ) * (2:ℝ) ^ (sqrtH man.toNat exp - (p:ℤ)) := by
    unfold Fmpr.valR Fmpr.val
    push_cast
    ring
  have hzv2 : (Fmpr.fin (((sqrtN man.toNat exp p : ℕ) : ℤ) + 1)
      (sqrtH man.toNat exp - (p:ℤ))).valR =
      ((sqrtN man.toNat exp p : ℝ) + 1) * (2:ℝ) ^ (sqrtH man.toNat exp - (p:ℤ)) := by
    unfold Fmpr.valR Fmpr.val
    push_cast
    ring
  have hsizen : Nat.size (sqrtN man.toNat exp p) = p := by
    have h1 : Nat.size (sqrtN man.toNat exp p) ≤ p := Nat.size_le.mpr hn2
    have h2 : p - 1 < Nat.size (sqrtN man.toNat exp p) := Nat.lt_size.mpr hn1
    omega
  have hulpR1 : ((fmprUlp (.fin ((sqrtN man.toNat exp p : ℕ) : ℤ)
      (sqrtH man.toNat exp - (p:ℤ))) p : ℚ) : ℝ) =
      (2:ℝ) ^ (sqrtH man.toNat exp - (p:ℤ)) := by
    simp only [fmprUlp]
    rw [Int.natAbs_ofNat, hsizen]
    push_cast
    congr 1
    ring
  have hulpR2 : (2:ℝ) ^ (sqrtH man.toNat exp - (p:ℤ)) ≤
      ((fmprUlp (.fin (((sqrtN man.toNat exp p : ℕ) : ℤ) + 1)
        (sqrtH man.toNat exp - (p:ℤ))) p : ℚ) : ℝ) := by
    simp only [fmprUlp]
    have hna : ((sqrtN man.toNat exp p : ℕ) : ℤ) + 1 =
        ((sqrtN man.toNat exp p + 1 : ℕ) : ℤ) := by push_cast; ring
    rw [hna, Int.natAbs_ofNat]
    have hsz : p ≤ Nat.size (sqrtN man.toNat exp p + 1) := by
      have h1 : p - 1 < Nat.size (sqrtN man.toNat exp p + 1) :=
        Nat.lt_size.mpr (by omega)
      omega
    push_cast
    exact zpow_le_zpow_right₀ (by norm_num) (by omega)
  have hdf_ex : ∀ md, (md = FmprRnd.down ∨ md = FmprRnd.floor) →
      sqrtExact man.toNat exp p = true →
      fmpr_sqrt (.fin man exp) p md =
        (.fin ((sqrtN man.toNat exp p : ℕ) : ℤ) (sqrtH man.toNat exp - (p:ℤ)), 0) := by
    rintro md (rfl | rfl) hx <;> simp [fmpr_sqrt, hnotneg, hx]
  have hdf_in : ∀ md, (md = FmprRnd.down ∨ md = FmprRnd.floor) →
      sqrtExact man.toNat exp p = false →
      fmpr_sqrt (.fin man exp) p md =
        (.fin ((sqrtN man.toNat exp p : ℕ) : ℤ) (sqrtH man.toNat exp - (p:ℤ)), -1) := by
    rintro md (rfl | rfl) hx <;> simp [fmpr_sqrt, hnotneg, hx]
  have hu_ex : ∀ md, (md = FmprRnd.up ∨ md = FmprRnd.ceil) →
      sqrtExact man.toNat exp p = true →
      fmpr_sqrt (.fin man exp) p md =
        (.fin ((sqrtN man.toNat exp p : ℕ) : ℤ) (sqrtH man.toNat exp - (p:ℤ)), 0) := by
    rintro md (rfl | rfl) hx <;> simp [fmpr_sqrt, hnotneg, hx]
  have hu_in : ∀ md, (md = FmprRnd.up ∨ md = FmprRnd.ceil) →
      sqrtExact man.toNat exp p = false →
      fmpr_sqrt (.fin man exp) p md =
        (.fin (((sqrtN man.toNat exp p : ℕ) : ℤ) + 1) (sqrtH man.toNat exp - (p:ℤ)), 1) := by
    rintro md (rfl | rfl) hx <;> simp [fmpr_sqrt, hnotneg, hx]
  rw [hvalx]
  have main_exact : sqrtExact man.toNat exp p = true →
      fmpr_check_ulp (.fin ((sqrtN man.toNat exp p : ℕ) : ℤ)
          (sqrtH man.toNat exp - (p:ℤ))) 0 p
        (Real.sqrt ((man.toNat : ℝ) * (2:ℝ) ^ exp)) := by
    intro hx
    have heq := hexiff.mp hx
    refine ⟨?_, ?_, ?_⟩
    · constructor
      · intro _
        rw [hzv]
        exact heq
      · intro _
        rfl
    · intro hcon
      exact absurd hcon (by norm_num)
    · intro hcon
      exact absurd hcon (by norm_num)
  have main_df_in : sqrtExact man.toNat exp p = false →
      fmpr_check_ulp (.fin ((sqrtN man.toNat exp p : ℕ) : ℤ)
          (sqrtH man.toNat exp - (p:ℤ))) (-1) p
        (Real.sqrt ((man.toNat : ℝ) * (2:ℝ) ^ exp)) := by
    intro hx
    have hstrict := hinexlt hx
    refine ⟨?_, ?_, ?_⟩
    · constructor
      · intro hcon
        exact absurd hcon (by norm_num)
      · intro hcon
        rw [hzv] at hcon
        exact absurd hcon (ne_of_lt hstrict)
    · intro hcon
      exact absurd hcon (by norm_num)
    · intro _
      rw [hzv, hulpR1, abs_of_pos hsp, abs_of_pos hzdp]
      constructor
      · exact hstrict
      · have h2 := hlt
        linarith
  have main_u_in : sqrtExact man.toNat exp p = false →
      fmpr_check_ulp (.fin (((sqrtN man.toNat exp p : ℕ) : ℤ) + 1)
          (sqrtH man.toNat exp - (p:ℤ))) 1 p
        (Real.sqrt ((man.toNat : ℝ) * (2:ℝ) ^ exp)) := by
    intro hx
    have hstrict := hinexlt hx
    refine ⟨?_, ?_, ?_⟩
    · constructor
      · intro hcon
        exact absurd hcon (by norm_num)
      · intro hcon
        rw [hzv2] at hcon
        exact absurd hcon.symm (ne_of_lt hlt)
    · intro _
      rw [hzv2, abs_of_pos hsp, abs_of_pos hzup]
      constructor
      · exact hlt
      · refine lt_of_lt_of_le ?_ hulpR2
        have hgap : ((sqrtN man.toNat exp p : ℝ) + 1) *
            (2:ℝ) ^ (sqrtH man.toNat exp - (p:ℤ)) =
            (sqrtN man.toNat exp p : ℝ) * (2:ℝ) ^ (sqrtH man.toNat exp - (p:ℤ)) +
              (2:ℝ) ^ (sqrtH man.toNat exp - (p:ℤ)) := by ring
        rw [hgap]
        linarith
    · intro hcon
      exact absurd hcon (by norm_num)
  cases mode with
  | down =>
    cases hex : sqrtExact man.toNat exp p
    · rw [hdf_in _ (Or.inl rfl) hex]
      exact main_df_in hex
    · rw [hdf_ex _ (Or.inl rfl) hex]
      exact main_exact hex
  | floor =>
    cases hex : sqrtExact man.toNat exp p
    · rw [hdf_in _ (Or.inr rfl) hex]
      exact main_df_in hex
    · rw [hdf_ex _ (Or.inr rfl) hex]
      exact main_exact hex
  | up =>
    cases hex : sqrtExact man.toNat exp p
    · rw [hu_in _ (Or.inl rfl) hex]
      exact main_u_in hex
    · rw [hu_ex _ (Or.inl rfl) hex]
      exact main_exact hex
  | ceil =>
    cases hex : sqrtExact man.toNat exp p
    · rw [hu_in _ (Or.inr rfl) hex]
      exact main_u_in hex
    · rw [hu_ex _ (Or.inr rfl) hex]
      exact main_exact hex

/-- Witness for C2 at `x = 5`, `p = 3`, rounding up. -/
theorem fmpr_sqrt_ulp_consistency_witness :
    fmpr_check_ulp (fmpr_sqrt (.fin 5 0) 3 FmprRnd.up).1
      (fmpr_sqrt (.fin 5 0) 3 FmprRnd.up).2 3
      (Real.sqrt ((Fmpr.fin 5 0).valR)) :=
  fmpr_sqrt_ulp_consistency 5 0 3 FmprRnd.up (by decide) (by decide) (by decide)
